import Mathlib

/-!
Verification of the chatieee document-structuring and hybrid-retrieval engine.

Texts are modelled as `List Char` (Python `str`), scores as `ℚ` (Python
`float`), Python `None` as `Option.none`.  Each definition is a shallow
embedding of the correspondingly named function of the source repository.
-/

namespace Chatieee

/-! ### Python string primitives -/

/-- Python whitespace predicate (`str.split`, `str.strip`, regex `\s`). -/
def pyIsSpace (c : Char) : Bool :=
  c == ' ' || c == '\t' || c == '\n' || c == '\r' ||
    c == Char.ofNat 11 || c == Char.ofNat 12

/-- Python `str.lstrip()`. -/
def lstripL (s : List Char) : List Char := s.dropWhile pyIsSpace

/-- Python `str.rstrip()`. -/
def rstripL (s : List Char) : List Char := (s.reverse.dropWhile pyIsSpace).reverse

/-- Python `str.strip()`. -/
def stripL (s : List Char) : List Char := rstripL (lstripL s)

/-- Python `str.split()` (split on whitespace runs, no empty fields). -/
def splitWs : List Char → List (List Char)
  | [] => []
  | c :: rest =>
    if pyIsSpace c then splitWs rest
    else
      match splitWs rest with
      | [] => [[c]]
      | w :: ws =>
        -- `w` continues the current word unless a space separated them; we
        -- rebuild words right-to-left, so peek whether `rest` starts the word.
        match rest with
        | [] => [[c]]
        | d :: _ => if pyIsSpace d then [c] :: w :: ws else (c :: w) :: ws

/-- Python `sep.join(parts)`. -/
def joinSep (sep : List Char) : List (List Char) → List Char
  | [] => []
  | [w] => w
  | w :: ws => w ++ sep ++ joinSep sep ws

/-- Python `str.upper()` (ASCII). -/
def pyUpper (s : List Char) : List Char := s.map Char.toUpper

/-- Python `str.lower()` (ASCII). -/
def pyLower (s : List Char) : List Char := s.map Char.toLower

/-- Worker for `replaceAll`, structurally recursive on a fuel argument so the
kernel can evaluate it; `fuel = s.length` always suffices because every step
consumes at least one character. -/
def replaceAllFuel (pat sub : List Char) : Nat → List Char → List Char
  | _, [] => []
  | 0, s => s
  | fuel + 1, c :: rest =>
    if pat ≠ [] ∧ pat.isPrefixOf (c :: rest) then
      sub ++ replaceAllFuel pat sub fuel (rest.drop (pat.length - 1))
    else
      c :: replaceAllFuel pat sub fuel rest

/-- Python `str.replace(pat, sub)`: replace every non-overlapping occurrence,
scanning left to right.  (`pat` is nonempty at every call site.) -/
def replaceAll (pat sub s : List Char) : List Char :=
  replaceAllFuel pat sub s.length s

/-- Worker for `collapseWs`; the flag records whether the previous character
was part of a whitespace run already collapsed. -/
def collapseWsAux : Bool → List Char → List Char
  | _, [] => []
  | prevSpace, c :: rest =>
    if pyIsSpace c then
      if prevSpace then collapseWsAux true rest
      else ' ' :: collapseWsAux true rest
    else c :: collapseWsAux false rest

/-- Python `re.sub(r"\s+", " ", s)`: collapse each maximal whitespace run to a
single space. -/
def collapseWs (s : List Char) : List Char := collapseWsAux false s

/-! ### C1 — figure-label normalisation

`src/src/ingest/pdf_ingest.py::normalise_figure_label` (extraction time) and
`src/src/query.py::normalise_figure_label` (lookup time). -/

/-- `pdf_ingest.normalise_figure_label`:
`cleaned = " ".join(raw.replace("FIGURE", "FIG.").replace("Fig", "FIG.").split())`;
if `cleaned.upper()` does not start with `"FIG."`, re-prefix with `"FIG. "`
followed by the last whitespace token; return `cleaned.upper()`. -/
def normaliseFigureLabelIngest (raw : List Char) : List Char :=
  let cleaned :=
    joinSep [' ']
      (splitWs (replaceAll "Fig".toList "FIG.".toList
        (replaceAll "FIGURE".toList "FIG.".toList raw)))
  let cleaned :=
    if "FIG.".toList.isPrefixOf (pyUpper cleaned) then cleaned
    else "FIG. ".toList ++ ((splitWs cleaned).getLast?.getD [])
  pyUpper cleaned

/-- The anchored prefix deleted by `re.sub(r"(?i)^fig(?:ure)?\.?\s*", "", raw)`
in `query.normalise_figure_label`: case-insensitive `fig`, optionally `ure`,
an optional dot, then greedy whitespace. -/
def dropFigLeader (s : List Char) : List Char :=
  if "figure".toList.isPrefixOf (pyLower s) then
    (s.drop 6).dropWhile pyIsSpace
  else if "fig".toList.isPrefixOf (pyLower s) then
    let t := s.drop 3
    let t := match t with
      | '.' :: t' => t'
      | _ => t
    t.dropWhile pyIsSpace
  else s

/-- `query.normalise_figure_label`: strip the `FIG`/`FIGURE` leader, strip and
collapse whitespace, and return `"FIGURE " + cleaned.upper()` (bare
`"FIGURE"` when nothing remains). -/
def normaliseFigureLabelQuery (raw : List Char) : List Char :=
  let cleaned := stripL (dropFigLeader raw)
  let cleaned := collapseWs cleaned
  if cleaned = [] then "FIGURE".toList
  else "FIGURE ".toList ++ pyUpper cleaned

/-- The join of `get_figures_for_chunks` (`src/src/query.py`): stored figure
rows keyed by `(document_id, figure_label)` are returned exactly when the same
pair was produced by normalising an in-text reference. -/
def figuresForLabelJoin (figures queried : List (Int × List Char)) :
    List (Int × List Char) :=
  figures.filter (fun f => queried.contains f)

/-! ### Query-time data model (`src/src/query.py`) -/

/-- `query.ChunkMatch`: a chunk with three independently nullable scores.
Python floats are modelled as `ℚ`, JSONB metadata as a string association
list. -/
structure ChunkMatch where
  id : Int
  document_id : Int
  page_start : Option Int := none
  page_end : Option Int := none
  content : String := ""
  metadata : List (String × String) := []
  vector_score : Option ℚ := none
  lexical_score : Option ℚ := none
  rerank_score : Option ℚ := none
deriving DecidableEq

/-! ### Stable descending sort (Python `sorted(..., key=..., reverse=True)`)

Python's sort is stable; a stable sort into weakly decreasing key order is
unique, so this insertion sort is extensionally the behaviour of
`sorted(xs, key=key, reverse=True)`. -/

/-- Insert `x` (an earlier list element) into the already sorted tail: it goes
in front of every element whose key is not strictly greater, so equal keys
keep their original order. -/
def insertDescBy {α : Type} (key : α → ℚ) (x : α) : List α → List α
  | [] => [x]
  | y :: ys => if key x < key y then y :: insertDescBy key x ys else x :: y :: ys

/-- Stable sort into weakly decreasing key order. -/
def sortDescBy {α : Type} (key : α → ℚ) : List α → List α
  | [] => []
  | x :: xs => insertDescBy key x (sortDescBy key xs)

/-- The ordering property produced by `sortDescBy`. -/
def SortedDescBy {α : Type} (key : α → ℚ) (l : List α) : Prop :=
  l.Pairwise (fun a b => key b ≤ key a)

/-- Python `max(...)` over a generator; the source only applies it to nonempty
batches (the empty case, on which Python raises, is mapped to `0`). -/
def pyMax : List ℚ → ℚ
  | [] => 0
  | x :: xs => xs.foldl max x

/-- The guarded normalisation used inside `_fallback`:
`(score or 0.0) / max_value if max_value else 0.0`. -/
def normalizeByMax (maxValue v : ℚ) : ℚ :=
  if maxValue ≠ 0 then v / maxValue else 0

/-- The scoring loop of `LLMReranker._fallback`: store
`0.6 * vector_component + 0.4 * lexical_component` as each candidate's rerank
score, with both components normalised by the batch maximum. -/
def fallbackScored (candidates : List ChunkMatch) : List ChunkMatch :=
  let maxVector := pyMax (candidates.map fun c => c.vector_score.getD 0)
  let maxLexical := pyMax (candidates.map fun c => c.lexical_score.getD 0)
  candidates.map fun c =>
    { c with
      rerank_score := some
        (6 / 10 * normalizeByMax maxVector (c.vector_score.getD 0) +
          4 / 10 * normalizeByMax maxLexical (c.lexical_score.getD 0)) }

/-- `LLMReranker._fallback`: score every candidate by the deterministic blend
and sort descending by the stored rerank score. -/
def fallbackRerank (candidates : List ChunkMatch) : List ChunkMatch :=
  if candidates = [] then []
  else sortDescBy (fun c => c.rerank_score.getD 0) (fallbackScored candidates)

/-! ### Ranking payload parsing (`LLMReranker._parse_ranking_output`) -/

/-- JSON values as produced by `json.loads`. -/
inductive Json where
  | null
  | bool (b : Bool)
  | num (q : ℚ)
  | str (s : String)
  | arr (items : List Json)
  | obj (fields : List (String × Json))

/-- Python truthiness of a JSON value. -/
def Json.truthy : Json → Bool
  | .null => false
  | .bool b => b
  | .num q => q != 0
  | .str s => s != ""
  | .arr items => !items.isEmpty
  | .obj fields => !fields.isEmpty

/-- `parsed.get(k)` on a decoded JSON object (`json.loads` keeps one value per
key, so the association list has distinct keys). -/
def jsonGet (fields : List (String × Json)) (k : String) : Option Json :=
  (fields.find? (fun kv => kv.1 == k)).map (·.2)

/-- Python `a or b` on optional JSON values (`None` and falsy values fall
through to the right operand). -/
def pyOr (a b : Option Json) : Option Json :=
  match a with
  | some v => if v.truthy then some v else b
  | none => b

/-- Whether a JSON value passes `isinstance(v, (int, float, str))` (`bool` is
an `int` subclass in Python). -/
def Json.isScalar : Json → Bool
  | .num _ => true
  | .str _ => true
  | .bool _ => true
  | _ => false

/-- Python `int(v)` applied to a JSON value: floats truncate toward zero,
numeric strings parse, anything else raises (modelled as `none`). -/
def pyToInt (v : Json) : Option Int :=
  match v with
  | .num q => some (if 0 ≤ q then ⌊q⌋ else ⌈q⌉)
  | .str s => parseIntChars s.toList
  | .bool b => some (if b then 1 else 0)
  | _ => none
where
  parseIntChars (s : List Char) : Option Int :=
    match stripL s with
    | '-' :: ds => if ds ≠ [] ∧ ds.all Char.isDigit then some (-(digitsVal ds : Int)) else none
    | '+' :: ds => if ds ≠ [] ∧ ds.all Char.isDigit then some (digitsVal ds) else none
    | ds => if ds ≠ [] ∧ ds.all Char.isDigit then some (digitsVal ds) else none
  digitsVal (ds : List Char) : Nat := ds.foldl (fun n c => 10 * n + (c.toNat - 48)) 0

/-- Python `float(v)` applied to a JSON value (decimal strings only; anything
unparsable raises, modelled as `none`). -/
def pyToFloat (v : Json) : Option ℚ :=
  match v with
  | .num q => some q
  | .str s => parseFloatChars s.toList
  | .bool b => some (if b then 1 else 0)
  | _ => none
where
  parseFloatChars (s : List Char) : Option ℚ :=
    match stripL s with
    | '-' :: ds => (parseUnsigned ds).map Neg.neg
    | '+' :: ds => parseUnsigned ds
    | ds => parseUnsigned ds
  parseUnsigned (ds : List Char) : Option ℚ :=
    let intPart := ds.takeWhile Char.isDigit
    match ds.dropWhile Char.isDigit with
    | [] => if intPart ≠ [] then some (digitsVal intPart : ℚ) else none
    | '.' :: frac =>
        if frac.all Char.isDigit ∧ (intPart ≠ [] ∨ frac ≠ []) then
          some ((digitsVal intPart : ℚ) + (digitsVal frac : ℚ) / (10 ^ frac.length : ℚ))
        else none
    | _ => none
  digitsVal (ds : List Char) : Nat := ds.foldl (fun n c => 10 * n + (c.toNat - 48)) 0

/-- The `ranking_entries` list computed by `_parse_ranking_output` from the
decoded payload (`none` models a falsy raw output or a `JSONDecodeError`):
object with a truthy `ranking`/`rankings`/`scores` list, a single
`{id, score}` object, a flat scalar map, or a top-level list; anything else
yields no entries. -/
def rankingEntries : Option Json → List Json
  | none => []
  | some parsed =>
    match parsed with
    | .obj fields =>
      let ranking := pyOr (jsonGet fields "ranking")
        (pyOr (jsonGet fields "rankings") (jsonGet fields "scores"))
      if ranking.isNone ∧ (jsonGet fields "id").isSome ∧ (jsonGet fields "score").isSome then
        [parsed]
      else
        match ranking with
        | some (.arr xs) => xs
        | _ =>
          if !fields.isEmpty ∧ fields.all (fun kv => kv.2.isScalar) then
            fields.map (fun kv => Json.obj [("id", Json.str kv.1), ("score", kv.2)])
          else []
    | .arr xs => xs
    | _ => []

/-- `scores[candidate_id] = candidate_score` on the Python dict (replace in
place, else append). -/
def upsertScore (scores : List (Int × ℚ)) (i : Int) (q : ℚ) : List (Int × ℚ) :=
  if scores.any (fun kv => kv.1 = i) then
    scores.map (fun kv => if kv.1 = i then (i, q) else kv)
  else scores ++ [(i, q)]

/-- The final loop of `_parse_ranking_output`: keep entries that are objects
with an int-able `id` and a float-able `score`. -/
def scoresFromEntries (entries : List Json) : List (Int × ℚ) :=
  entries.foldl
    (fun scores entry =>
      match entry with
      | .obj fields =>
        match jsonGet fields "id", jsonGet fields "score" with
        | some idv, some scorev =>
          match pyToInt idv, pyToFloat scorev with
          | some i, some q => upsertScore scores i q
          | _, _ => scores
        | _, _ => scores
      | _ => scores)
    []

/-- `LLMReranker._parse_ranking_output` composed with `json.loads`. -/
def parseRankingOutput (payload : Option Json) : List (Int × ℚ) :=
  scoresFromEntries (rankingEntries payload)

/-- Dictionary lookup `candidate.id in scores` / `scores[candidate.id]`. -/
def lookupScore (scores : List (Int × ℚ)) (i : Int) : Option ℚ :=
  (scores.find? (fun kv => kv.1 = i)).map (·.2)

/-! ### `LLMReranker.rerank` -/

/-- Observable outcome of the external relevance-judgment interaction inside
the `try` block of `rerank` (the call plus output extraction): a decoded
payload (`none` for a falsy output or undecodable JSON), a raised
`RuntimeError`, or any other raised exception. -/
inductive CallOutcome where
  | payload (parsed : Option Json)
  | raisedRuntimeError
  | raisedOther

/-- The assignment loop of `rerank`: candidates whose id was scored get their
`rerank_score` set. -/
def applyScores (scores : List (Int × ℚ)) (candidates : List ChunkMatch) :
    List ChunkMatch :=
  candidates.map fun c =>
    match lookupScore scores c.id with
    | some s => { c with rerank_score := some s }
    | none => c

/-- `LLMReranker.rerank`.  `Except.error` models an exception propagating to
the caller (the `raise RuntimeError(...) from exc` branch); `Except.ok` the
normal return. -/
def rerank (available : Bool) (candidates : List ChunkMatch)
    (call : CallOutcome) : Except String (List ChunkMatch) :=
  if available = false ∨ candidates = [] then .ok (fallbackRerank candidates)
  else
    match call with
    | .raisedRuntimeError => .error "OpenAI client is not available"
    | .raisedOther => .ok (fallbackRerank candidates)
    | .payload parsed =>
      let scores := parseRankingOutput parsed
      if scores = [] then .ok (fallbackRerank candidates)
      else
        let cands := applyScores scores candidates
        let remaining := cands.filter fun c => c.rerank_score ≠ none
        if remaining = [] then .ok (fallbackRerank cands)
        else
          .ok (sortDescBy (fun c => c.rerank_score.getD 0) remaining ++
            sortDescBy (fun c => c.vector_score.getD 0 + c.lexical_score.getD 0)
              (cands.filter fun c => c.rerank_score = none))

/-- The deterministic blended score of the spec's fallback policy, stated from
the spec's words: each score normalised independently by the batch maximum
(an all-zero maximum contributing zero instead of dividing by zero), combined
as `0.6 * normalized_vector + 0.4 * normalized_lexical`. -/
def blendScore (batch : List ChunkMatch) (c : ChunkMatch) : ℚ :=
  let maxVector := pyMax (batch.map fun c => c.vector_score.getD 0)
  let maxLexical := pyMax (batch.map fun c => c.lexical_score.getD 0)
  6 / 10 * (if maxVector = 0 then 0 else c.vector_score.getD 0 / maxVector) +
    4 / 10 * (if maxLexical = 0 then 0 else c.lexical_score.getD 0 / maxLexical)

/-- The spec's deterministic blended-score ordering: sort the candidates
descending by `blendScore` (recording the blend as the rerank score). -/
def blendedOrdering (candidates : List ChunkMatch) : List ChunkMatch :=
  (sortDescBy (blendScore candidates) candidates).map
    (fun c => { c with rerank_score := some (blendScore candidates c) })

/-! ### `HybridRetriever._combine_results`

The Python dict `combined` (insertion ordered, `int` keys) is modelled as an
association list; `list(combined.values())` is `map (·.2)`. -/

/-- The in-place mutation applied to the vector-side match when the same chunk
arrives in the lexical results: take over the lexical score, and the metadata
when the existing metadata is empty and the incoming one is not. -/
def mergeLexInto (existing incoming : ChunkMatch) : ChunkMatch :=
  let updated := { existing with lexical_score := incoming.lexical_score }
  if updated.metadata = [] ∧ incoming.metadata ≠ [] then
    { updated with metadata := incoming.metadata }
  else updated

/-- Python dict assignment `combined[k] = v`: replace in place when the key
exists, else append. -/
def dictSet (d : List (Int × ChunkMatch)) (k : Int) (v : ChunkMatch) :
    List (Int × ChunkMatch) :=
  if d.any (fun kv => kv.1 = k) then
    d.map (fun kv => if kv.1 = k then (k, v) else kv)
  else d ++ [(k, v)]

/-- Python dict lookup `combined.get(k)`. -/
def dictGet (d : List (Int × ChunkMatch)) (k : Int) : Option ChunkMatch :=
  (d.find? (fun kv => kv.1 = k)).map (·.2)

/-- One iteration of the lexical loop of `_combine_results`. -/
def mergeStep (d : List (Int × ChunkMatch)) (r : ChunkMatch) :
    List (Int × ChunkMatch) :=
  match dictGet d r.id with
  | some existing => dictSet d r.id (mergeLexInto existing r)
  | none => dictSet d r.id r

/-- `HybridRetriever._combine_results`: index the vector results by chunk id,
fold the lexical results in (merging on id collision), and return the dict
values in insertion order. -/
def combineResults (vectorResults lexicalResults : List ChunkMatch) :
    List ChunkMatch :=
  let combined := vectorResults.foldl (fun d r => dictSet d r.id r) []
  let combined := lexicalResults.foldl mergeStep combined
  combined.map (·.2)

/-- Specification helper: the net effect of the lexical loop on one dict
entry — merge with the (unique) lexical result carrying the same id, if any. -/
def lookupMergeWith (lex : List ChunkMatch) : Int × ChunkMatch → Int × ChunkMatch
  | (k, c) =>
    match lex.find? (fun l => l.id = k) with
    | some l => (k, mergeLexInto c l)
    | none => (k, c)

/-- Specification helper: merge a vector-side match with the (first) lexical
result that shares its chunk id, if any. -/
def mergeWithLex (lex : List ChunkMatch) (v : ChunkMatch) : ChunkMatch :=
  match lex.find? (fun l => l.id = v.id) with
  | some l => mergeLexInto v l
  | none => v

/-- The spec's merge example, vector side: `{A:0.9, B:0.7}`. -/
def c4VecExample : List ChunkMatch :=
  [{ id := 1, document_id := 1, vector_score := some (9 / 10) },
   { id := 2, document_id := 1, vector_score := some (7 / 10) }]

/-- The spec's merge example, lexical side: `{B:0.5, C:0.3}`. -/
def c4LexExample : List ChunkMatch :=
  [{ id := 2, document_id := 1, lexical_score := some (5 / 10) },
   { id := 3, document_id := 1, lexical_score := some (3 / 10) }]

/-! ### `build_chunks_from_pdf` (`src/src/ingest/pdf_ingest.py`)

pdfplumber interaction is abstracted to its per-page results: the paragraph
list returned by `extract_body_paragraphs` and the `(text, table_index_on_page)`
pairs returned by `extract_table_texts`. -/

/-- A parsed PDF page as consumed by the chunk builder. -/
structure PdfPage where
  paragraphs : List (List Char)
  tables : List (List Char × Nat)
deriving DecidableEq

/-- `MAX_CHARS_PER_BODY_CHUNK = 1800`. -/
def MAX_CHARS_PER_BODY_CHUNK : Nat := 1800

/-- One chunk dict produced by `build_chunks_from_pdf` (the metadata map is
flattened to the single `table_index_on_page` key it can hold). -/
structure ChunkRec where
  chunk_index : Nat
  page_start : Option Nat
  page_end : Option Nat
  content : List Char
  heading : Option (List Char)
  chunk_type : String
  tableIndexOnPage : Option Nat := none
deriving DecidableEq

/-- The mutable locals of the body-chunk loop. -/
structure BuildState where
  chunks : List ChunkRec
  buffer : List (List Char)
  bufferPageStart : Option Nat
  bufferPageEnd : Option Nat
  chunkIndex : Nat
deriving DecidableEq

/-- Append one body chunk built from the buffer (the `chunks.append` under
`if body_text:`), bumping `chunk_index`. -/
def emitBodyChunk (s : BuildState) : BuildState :=
  let bodyText := stripL (joinSep [' '] s.buffer)
  if bodyText ≠ [] then
    { s with
      chunks := s.chunks ++
        [{ chunk_index := s.chunkIndex
           page_start := s.bufferPageStart
           page_end := s.bufferPageEnd
           content := bodyText
           heading := none
           chunk_type := "body" }]
      chunkIndex := s.chunkIndex + 1 }
  else s

/-- The body of the `for para in paragraphs` loop. -/
def processParagraph (pageNum : Nat) (s : BuildState) (para : List Char) :
    BuildState :=
  let s := { s with
    bufferPageStart := some (s.bufferPageStart.getD pageNum)
    bufferPageEnd := some pageNum }
  let prospectiveLen := (s.buffer.map List.length).sum + s.buffer.length + para.length
  if prospectiveLen > MAX_CHARS_PER_BODY_CHUNK ∧ s.buffer ≠ [] then
    let s := emitBodyChunk s
    { s with
      buffer := [para]
      bufferPageStart := some pageNum
      bufferPageEnd := some pageNum }
  else
    { s with buffer := s.buffer ++ [para] }

/-- The `for page_num, page in enumerate(pdf.pages, start=1)` body loop. -/
def processBodyPages : Nat → List PdfPage → BuildState → BuildState
  | _, [], s => s
  | pageNum, p :: ps, s =>
    processBodyPages (pageNum + 1) ps (p.paragraphs.foldl (processParagraph pageNum) s)

/-- Flush the remainder body buffer after the page loop. -/
def flushRemainder (s : BuildState) : BuildState :=
  if s.buffer ≠ [] then emitBodyChunk s else s

/-- The second pass emitting one `table` chunk per extracted table. -/
def processTablePage (pageNum : Nat) (s : BuildState)
    (tables : List (List Char × Nat)) : BuildState :=
  tables.foldl
    (fun s t =>
      if t.1 ≠ [] then
        { s with
          chunks := s.chunks ++
            [{ chunk_index := s.chunkIndex
               page_start := some pageNum
               page_end := some pageNum
               content := t.1
               heading := none
               chunk_type := "table"
               tableIndexOnPage := some t.2 }]
          chunkIndex := s.chunkIndex + 1 }
      else s)
    s

/-- The `for page_num, page in enumerate(pdf.pages, start=1)` table loop. -/
def processTablePages : Nat → List PdfPage → BuildState → BuildState
  | _, [], s => s
  | pageNum, p :: ps, s =>
    processTablePages (pageNum + 1) ps (processTablePage pageNum s p.tables)

/-- `build_chunks_from_pdf`: body chunks in reading order, then table
chunks, with one running `chunk_index`. -/
def buildChunksFromPdf (pages : List PdfPage) : List ChunkRec :=
  let s : BuildState := { chunks := []
                          buffer := []
                          bufferPageStart := none
                          bufferPageEnd := none
                          chunkIndex := 0 }
  let s := processBodyPages 1 pages s
  let s := flushRemainder s
  let s := processTablePages 1 pages s
  s.chunks

/-! ### Ingestion pipeline state (`ingest_pdf`, `replace_chunks`,
`persist_document_pages`, `upload_image_fn`)

The relational store is modelled per document: the chunk rows, the page
rendition rows and the document row.  `uuid.uuid4().hex` in
`upload_image_fn` is modelled by a counter threaded through the run and
rendered into the object name (fresh per call, as uuids are). -/

/-- `utils/storage._sanitize_name` character class `[a-z0-9._-]`. -/
def isSafeNameChar (c : Char) : Bool :=
  ('a' ≤ c ∧ c ≤ 'z') ∨ ('0' ≤ c ∧ c ≤ '9') ∨ c = '.' ∨ c = '_' ∧ true ∨ c = '-'

/-- Replace each maximal run of characters failing `good` by one dash
(`re.sub(r"[^...]+", "-", base)`). -/
def dashInvalidRuns (good : Char → Bool) : Bool → List Char → List Char
  | _, [] => []
  | prevBad, c :: rest =>
    if good c then c :: dashInvalidRuns good false rest
    else if prevBad then dashInvalidRuns good true rest
    else '-' :: dashInvalidRuns good true rest

/-- Python `str.strip(chars)` for a character set. -/
def stripCharSet (bad : Char → Bool) (s : List Char) : List Char :=
  ((s.dropWhile bad).reverse.dropWhile bad).reverse

/-- The part after the last path separator:
`base.replace("\\", "/").split("/")[-1]`. -/
def afterLastSlash (s : List Char) : List Char :=
  ((s.map (fun c => if c = '\\' then '/' else c)).reverse.takeWhile
    (fun c => c ≠ '/')).reverse

/-- `utils/storage._sanitize_name`. -/
def sanitizeName (name : List Char) : List Char :=
  let base := pyLower (stripL name)
  let base := afterLastSlash base
  let base := dashInvalidRuns isSafeNameChar false base
  let base := stripCharSet (fun c => c = '-') base
  if base = [] then "asset".toList else base

/-- `utils/storage._sanitize_folder` character class `[a-z0-9/_-]`. -/
def isSafeFolderChar (c : Char) : Bool :=
  ('a' ≤ c ∧ c ≤ 'z') ∨ ('0' ≤ c ∧ c ≤ '9') ∨ c = '/' ∨ c = '_' ∨ c = '-'

/-- `utils/storage._sanitize_folder`. -/
def sanitizeFolder (folder : List Char) : List Char :=
  if folder = [] then "figures".toList
  else
    let cleaned := dashInvalidRuns isSafeFolderChar false (pyLower (stripL folder))
    let cleaned := stripCharSet (fun c => c = '/' ∨ c = '-') cleaned
    if cleaned = [] then "figures".toList else cleaned

/-- Decimal rendering of a natural number. -/
def natChars (n : Nat) : List Char := Nat.toDigits 10 n

/-- `utils/storage.upload_image_fn`: upload and return
`gs://{bucket}/{folder}/{uuid-hex}_{name}`; `uuidHex` stands for the fresh
`uuid.uuid4().hex` of this call. -/
def uploadImageFn (uuidHex : Nat) (suggestedName folder : List Char) : List Char :=
  "gs://chat-ieee.firebasestorage.app/".toList ++ sanitizeFolder folder ++
    ['/'] ++ natChars uuidHex ++ ['_'] ++ sanitizeName suggestedName

/-- One `rag_document_page` row. -/
structure PageRow where
  page_number : Nat
  image_uri : List Char
deriving DecidableEq

/-- The `rag_document` row kept by `upsert_document` for one external id. -/
structure DocRow where
  external_id : List Char
  checksum : List Char
  total_pages : Nat
deriving DecidableEq

/-- The store state for one document. -/
structure DbState where
  doc : Option DocRow
  chunks : List ChunkRec
  pages : List PageRow
deriving DecidableEq

/-- The empty store. -/
def emptyDb : DbState := { doc := none, chunks := [], pages := [] }

/-- The pdf input of `ingest_pdf`: its parsed pages and its content checksum
(`compute_checksum` is a function of the file bytes, so identical content has
an identical checksum). -/
structure PdfFile where
  pages : List PdfPage
  checksum : List Char
deriving DecidableEq

/-- Page-image object name `f"doc{document_id}_page_{page_num:04d}.png"`. -/
def pageImageName (documentId pageNum : Nat) : List Char :=
  "doc".toList ++ natChars documentId ++ "_page_".toList ++
    (List.replicate (4 - (natChars pageNum).length) '0' ++ natChars pageNum) ++
    ".png".toList

/-- `persist_document_pages`: render and upload every page, then replace the
`rag_document_page` rows wholesale. -/
def persistDocumentPages (documentId : Nat) (pages : List PdfPage)
    (uuidStart : Nat) : List PageRow :=
  (List.range pages.length).map fun i =>
    { page_number := i + 1
      image_uri := uploadImageFn (uuidStart + i) (pageImageName documentId (i + 1))
        "pages".toList }

/-- `ingest_pdf` on one document (figure extraction, which is purely
additive upsert of `rag_figure` rows, is outside this model): check the file,
upsert the document row, rebuild and replace all chunk rows
(`replace_chunks` always deletes then reinserts), and replace the page
renditions with freshly uploaded images.  Returns the new store, the next
fresh-uuid counter, and the number of SQL write statements `replace_chunks`
executed (1 delete + one insert per chunk), which measures the replacement
work done by the run. -/
def ingestPdf (pdf : PdfFile) (fileExists : Bool) (externalId : List Char)
    (uuidStart : Nat) (_priorState : DbState) : Except String (DbState × Nat × Nat) :=
  if fileExists = false then .error "PDF file not found"
  else
    let doc : DocRow := { external_id := externalId
                          checksum := pdf.checksum
                          total_pages := pdf.pages.length }
    let chunks := buildChunksFromPdf pdf.pages
    let chunkOps := 1 + chunks.length
    let pageRows := persistDocumentPages 1 pdf.pages uuidStart
    .ok ({ doc := some doc, chunks := chunks, pages := pageRows },
      uuidStart + pdf.pages.length, chunkOps)

/-- The parameter names `ingest_pdf` declares
(`pdf_path, external_id, title, description, source_uri`). -/
def ingestPdfParams : List (List Char) :=
  ["pdf_path".toList, "external_id".toList, "title".toList,
   "description".toList, "source_uri".toList]

/-- The keyword arguments `process_ingest_background` writes at its
`ingest_pdf(...)` call site — including `check_strikeouts=`, which
`ingest_pdf` does not declare. -/
def ingestCallKwargs : List (List Char) :=
  ["pdf_path".toList, "external_id".toList, "title".toList,
   "description".toList, "source_uri".toList, "check_strikeouts".toList]

/-- Python keyword-argument binding: a keyword naming no parameter of the
callee raises `TypeError` before the callee's body runs; otherwise the call
proceeds. -/
def callWithKwargs (params kwargs : List (List Char))
    (run : Unit → Except String (DbState × Nat × Nat)) :
    Except String (DbState × Nat × Nat) :=
  match kwargs.find? (fun k => !params.contains k) with
  | some k => .error ("TypeError: ingest_pdf() got an unexpected keyword argument " ++
      String.mk k)
  | none => run ()

/-- `api.process_ingest_background`: call `ingest_pdf` with the keyword
arguments written at the call site, then record `completed` when the call
returns, `failed` with the exception message when it raises (the stored
rows are whatever the run produced; on an exception raised at call binding
the prior store is untouched).  Returns
`(status, error message, resulting store)`. -/
def processIngestBackground (pdf : PdfFile) (fileExists : Bool)
    (externalId : List Char) (uuidStart : Nat) (priorState : DbState) :
    String × Option String × DbState :=
  match callWithKwargs ingestPdfParams ingestCallKwargs
      (fun _ => ingestPdf pdf fileExists externalId uuidStart priorState) with
  | .ok (st, _, _) => ("completed", none, st)
  | .error e => ("failed", some e, priorState)

/-- The invariant of the chunk-builder loops: emitted chunk indices are
`0, 1, 2, …` in list order and the running counter equals the count. -/
def IndexInv (s : BuildState) : Prop :=
  s.chunks.map (fun c => c.chunk_index) = List.range s.chunks.length ∧
  s.chunkIndex = s.chunks.length

/-- A one-page document with body text, for exercising re-ingestion. -/
def c3ExamplePdf : PdfFile :=
  { pages := [{ paragraphs := ["hello world".toList], tables := [] }]
    checksum := "c0ffee".toList }

/-- A two-page document none of whose pages has extractable text or tables. -/
def c8ZeroTextPdf : PdfFile :=
  { pages := [{ paragraphs := [], tables := [] }, { paragraphs := [], tables := [] }]
    checksum := "00".toList }

/-! ### `ChunkUpdater._prepare_rows` (`src/src/ingest/embed_and_update_chunks.py`)

`START_HEADING_RE = \b1[\.\)]?\s*overview\b` (IGNORECASE) is embedded as an
explicit matcher; `self._strip_headers_and_footers` (built from the
configured literal header/footer phrases) is passed in as the `strip`
function. -/

/-- Python regex word character (ASCII), for `\b`. -/
def isWordChar (c : Char) : Bool := c.isAlphanum || c == '_'

/-- The part of `START_HEADING_RE` after `\b`: `overview\b`, case-insensitive. -/
def matchOverviewTail (rest : List Char) : Bool :=
  (pyLower (rest.take 8) == "overview".toList) &&
    (match rest.drop 8 with
     | [] => true
     | c :: _ => !isWordChar c)

/-- `1[\.\)]?\s*overview\b` matched against a suffix. -/
def matchStartHeadingCore : List Char → Bool
  | [] => false
  | c :: rest =>
    c == '1' &&
    (let rest2 := match rest with
      | '.' :: r => r
      | ')' :: r => r
      | r => r
    matchOverviewTail (rest2.dropWhile pyIsSpace))

/-- Whether `START_HEADING_RE` matches starting at position `i`. -/
def matchStartHeadingAt (cs : List Char) (i : Nat) : Bool :=
  (decide (i = 0) ||
    (match cs.get? (i - 1) with
     | some c => !isWordChar c
     | none => true)) &&
  matchStartHeadingCore (cs.drop i)

/-- `START_HEADING_RE.search(cleaned)`: index of the leftmost match. -/
def searchStartHeading (cs : List Char) : Option Nat :=
  (List.range cs.length).find? (fun i => matchStartHeadingAt cs i)

/-- One `rag_chunk` row as loaded by `ChunkUpdater.run`. -/
structure ChunkRow where
  id : Int
  document_id : Int
  content : List Char
  needs_update : Bool := true
deriving DecidableEq

/-- The `start_found = True` phase of the `_prepare_rows` loop: keep every
chunk whose stripped content is nonempty. -/
def keepCleaned (strip : List Char → List Char) : List ChunkRow → List ChunkRow
  | [] => []
  | chunk :: rest =>
    let cleaned := strip chunk.content
    if cleaned = [] then keepCleaned strip rest
    else { chunk with content := cleaned } :: keepCleaned strip rest

/-- `ChunkUpdater._prepare_rows` (the loop's `start_found` flag is split into
the two phases it switches between, this one being `start_found = False`):
strip boilerplate, skip everything before the first chunk matching
`START_HEADING_RE`, truncate that chunk to start at the match
(left-stripped), then keep every later non-empty chunk. -/
def prepareRows (strip : List Char → List Char) : List ChunkRow → List ChunkRow
  | [] => []
  | chunk :: rest =>
    let cleaned := strip chunk.content
    if cleaned = [] then prepareRows strip rest
    else
      match searchStartHeading cleaned with
      | none => prepareRows strip rest
      | some k =>
        let cleaned2 := lstripL (cleaned.drop k)
        if cleaned2 = [] then keepCleaned strip rest
        else { chunk with content := cleaned2 } :: keepCleaned strip rest

/-! ### `SectionAwareTextSplitter` (`src/src/chatieee/text_splitter.py`)

This is the chunker carrying the configured `overlap_chars`; the
`build_chunks_from_pdf` variant above has no overlap parameter at all.
Emitted chunks carry two ghost fields — the unstripped buffer join
`rawText` and the reason the chunk was emitted (`tag`) — used only to state
the overlap invariant; they do not affect the computed text. -/

/-- `models.PageText`. -/
structure PageText where
  page_number : Nat
  text : List Char
deriving DecidableEq

/-- Why a chunk was flushed: the size budget, a heading boundary, or the
final flush after the page loop. -/
inductive FlushKind where
  | size
  | heading
  | final
deriving DecidableEq

/-- `models.Chunk` plus the two ghost fields. -/
structure SChunk where
  index : Nat
  text : List Char
  section_title : Option (List Char)
  page_span : Nat × Nat
  rawText : List Char
  tag : FlushKind
deriving DecidableEq

/-- The `[A-Z0-9 ,\-]` class of `HEADING_PATTERN`. -/
def headingBodyClass (c : Char) : Bool :=
  ('A' ≤ c ∧ c ≤ 'Z') ∨ ('0' ≤ c ∧ c ≤ '9') ∨ c = ' ' ∨ c = ',' ∨ c = '-'

/-- `[A-Z][A-Z0-9 ,\-]{3,}$` against a suffix. -/
def headingCore : List Char → Bool
  | [] => false
  | c :: rest => ('A' ≤ c ∧ c ≤ 'Z') ∧ 3 ≤ rest.length ∧ rest.all headingBodyClass

/-- `(\.\d+)*`, greedy, by fuel (`fuel = s.length` always suffices). -/
def takeDotGroupsFuel : Nat → List Char → List Char
  | _, [] => []
  | 0, s => s
  | fuel + 1, s =>
    match s with
    | '.' :: rest =>
      if rest.takeWhile Char.isDigit = [] then s
      else takeDotGroupsFuel fuel (rest.dropWhile Char.isDigit)
    | _ => s

/-- The rest of the input after the greedy `\d+(\.\d+)*` group, when the
group matches at all. -/
def takeNumberGroup (s : List Char) : Option (List Char) :=
  if s.takeWhile Char.isDigit = [] then none
  else some (takeDotGroupsFuel s.length (s.dropWhile Char.isDigit))

/-- `HEADING_PATTERN = ^\s*(\d+(\.\d+)*)?\s*[A-Z][A-Z0-9 ,\-]{3,}$` via
`re.match`: with this pattern the greedy choices are never backtracked, the
only real alternative being whether the optional number group is taken. -/
def headingPatternMatch (s : List Char) : Bool :=
  let t := s.dropWhile pyIsSpace
  headingCore t ||
    (match takeNumberGroup t with
     | some rest => headingCore (rest.dropWhile pyIsSpace)
     | none => false)

/-- Python `str.isupper()` (ASCII): some cased character, and no cased
character in lowercase. -/
def pyIsUpper (s : List Char) : Bool :=
  s.any (fun c => c.isAlpha) && s.all (fun c => !c.isAlpha || c.isUpper)

/-- `SectionAwareTextSplitter._looks_like_heading`. -/
def looksLikeHeading (value : List Char) : Bool :=
  let stripped := stripL value
  ((splitWs stripped).length ≤ 1 && pyIsUpper stripped) || headingPatternMatch stripped

/-- `_paragraphs`: split into lines, strip each, keep the nonempty ones. -/
def splitOnNewline : List Char → List (List Char)
  | [] => [[]]
  | '\n' :: rest => [] :: splitOnNewline rest
  | c :: rest =>
    match splitOnNewline rest with
    | [] => [[c]]
    | w :: ws => (c :: w) :: ws

/-- `_paragraphs(text)`. -/
def paragraphsOf (text : List Char) : List (List Char) :=
  ((splitOnNewline text).map stripL).filter (fun p => p ≠ [])

/-- The `"\n\n"` separator joining buffered paragraphs. -/
def NL2 : List Char := ['\n', '\n']

/-- Python `text[-n:]`. -/
def takeRight (n : Nat) (s : List Char) : List Char := s.drop (s.length - n)

/-- The mutable locals of `SectionAwareTextSplitter.split`. -/
structure SplitState where
  chunks : List SChunk
  buffer : List (List Char)
  bufferChars : Nat
  bufferStartPage : Option Nat
  currentSection : Option (List Char)
  chunkIndex : Nat
deriving DecidableEq

/-- Python `buffer_start_page or fallback` — `None` and `0` are both falsy. -/
def pyOrNat : Option Nat → Nat → Nat
  | some n, d => if n = 0 then d else n
  | none, d => d

/-- `_emit_chunk` (with the ghost fields recorded); `startPage` is computed
at each call site exactly as the source passes it. -/
def emitChunk (s : SplitState) (startPage endPage : Nat) (tag : FlushKind) :
    SChunk :=
  { index := s.chunkIndex
    text := stripL (joinSep NL2 s.buffer)
    section_title := s.currentSection
    page_span := (startPage, endPage)
    rawText := joinSep NL2 s.buffer
    tag := tag }

/-- `_with_overlap`: seed the next buffer with the trailing `overlap_chars`
characters of the flushed (unstripped) text. -/
def withOverlap (overlapChars : Nat) (buffer : List (List Char)) :
    List (List Char) × Nat :=
  if buffer = [] ∨ overlapChars = 0 then ([], 0)
  else
    let overlapText := takeRight overlapChars (joinSep NL2 buffer)
    ([overlapText], overlapText.length)

/-- The body of the `for paragraph in _paragraphs(page.text)` loop
(`if not paragraph: continue` is vacuous, `_paragraphs` never yields an
empty paragraph). -/
def processSplitPara (maxChars overlapChars pageNum : Nat) (s : SplitState)
    (para : List Char) : SplitState :=
  if looksLikeHeading para then
    let s :=
      if s.buffer ≠ [] then
        { s with
          chunks := s.chunks ++
            [emitChunk s (pyOrNat s.bufferStartPage pageNum) pageNum
              FlushKind.heading]
          chunkIndex := s.chunkIndex + 1
          buffer := []
          bufferChars := 0
          bufferStartPage := none }
      else s
    { s with
      currentSection := some (stripL para)
      bufferStartPage := some pageNum }
  else
    let s := { s with bufferStartPage := some (s.bufferStartPage.getD pageNum) }
    let s := { s with
      buffer := s.buffer ++ [para]
      bufferChars := s.bufferChars + para.length }
    if maxChars ≤ s.bufferChars then
      let s2 := { s with
        chunks := s.chunks ++
          [emitChunk s (s.bufferStartPage.getD pageNum) pageNum FlushKind.size]
        chunkIndex := s.chunkIndex + 1 }
      let ov := withOverlap overlapChars s.buffer
      { s2 with
        buffer := ov.1
        bufferChars := ov.2
        bufferStartPage := some pageNum }
    else s

/-- The page loop, also tracking `last_page_number`. -/
def processSplitPages (maxChars overlapChars : Nat) :
    List PageText → SplitState × Nat → SplitState × Nat
  | [], acc => acc
  | page :: ps, (s, _) =>
    processSplitPages maxChars overlapChars ps
      ((paragraphsOf page.text).foldl
        (processSplitPara maxChars overlapChars page.page_number) s,
       page.page_number)

/-- `SectionAwareTextSplitter.split`. -/
def splitPages (maxChars overlapChars : Nat) (pages : List PageText) :
    List SChunk :=
  let acc := processSplitPages maxChars overlapChars pages
    ({ chunks := [], buffer := [], bufferChars := 0, bufferStartPage := none,
       currentSection := none, chunkIndex := 0 }, 1)
  if acc.1.buffer ≠ [] then
    acc.1.chunks ++
      [emitChunk acc.1 (pyOrNat acc.1.bufferStartPage acc.2) acc.2
        FlushKind.final]
  else acc.1.chunks

/-- No trailing whitespace: the last character, if any, is not whitespace. -/
def LastOk (s : List Char) : Prop :=
  ∀ c, s.getLast? = some c → pyIsSpace c = false

/-- `pre` is an initial segment of `s`. -/
def StartsWith (pre s : List Char) : Prop := s.take pre.length = pre

/-- The overlap link between adjacent chunks, at the raw (unstripped)
level: a size-flushed chunk's trailing `V` raw characters open the next
chunk's raw text. -/
def LinkOk (V : Nat) (c d : SChunk) : Prop :=
  c.tag = FlushKind.size → StartsWith (takeRight V c.rawText) d.rawText

/-- The loop invariant of `SectionAwareTextSplitter.split`: buffered
paragraphs are nonempty without trailing whitespace, every emitted chunk's
text is the strip of its raw join, adjacent chunks satisfy the raw overlap
link, and a size-flushed last chunk's trailing window opens the live
buffer. -/
structure SplitInv (V : Nat) (s : SplitState) : Prop where
  bufOk : ∀ p ∈ s.buffer, p ≠ [] ∧ LastOk p
  chunksOk : ∀ c ∈ s.chunks,
    c.text = stripL c.rawText ∧ c.rawText ≠ [] ∧ LastOk c.rawText
  chain : List.Chain' (LinkOk V) s.chunks
  lastSize : ∀ c, s.chunks.getLast? = some c → c.tag = FlushKind.size →
    s.buffer ≠ [] ∧ StartsWith (takeRight V c.rawText) (joinSep NL2 s.buffer)

/-- The first two chunks `splitPages 4 2` produces from the single page
`"abcd\nef"`: a clean size flush whose 2-character tail `"cd"` survives the
strip of the following chunk. -/
def c7ChunkA : SChunk :=
  { index := 0
    text := "abcd".toList
    section_title := none
    page_span := (1, 1)
    rawText := "abcd".toList
    tag := FlushKind.size }

/-- Second chunk of the same run: raw text `"cd\n\nef"`, again size-flushed. -/
def c7ChunkB : SChunk :=
  { index := 1
    text := "cd\n\nef".toList
    section_title := none
    page_span := (1, 1)
    rawText := "cd\n\nef".toList
    tag := FlushKind.size }

/-- Rows for exercising `_prepare_rows`: boilerplate, then the overview
heading, then body. -/
def c10Rows : List ChunkRow :=
  [{ id := 1, document_id := 1, content := "front matter and contents".toList },
   { id := 2, document_id := 1, content := "1. Overview begins here".toList },
   { id := 3, document_id := 1, content := "more body text".toList }]

end Chatieee

namespace Chatieee

/-! ### Lemmas about the stable descending sort -/

theorem insertDescBy_perm {α : Type} (key : α → ℚ) (x : α) (l : List α) :
    (insertDescBy key x l).Perm (x :: l) := by
  induction l with
  | nil => exact List.Perm.refl _
  | cons y ys ih =>
    simp only [insertDescBy]
    split
    · exact (ih.cons y).trans (List.Perm.swap x y ys)
    · exact List.Perm.refl _

theorem sortDescBy_perm {α : Type} (key : α → ℚ) (l : List α) :
    (sortDescBy key l).Perm l := by
  induction l with
  | nil => exact List.Perm.refl _
  | cons x xs ih => exact (insertDescBy_perm key x _).trans (ih.cons x)

theorem insertDescBy_sorted {α : Type} (key : α → ℚ) (x : α) {l : List α}
    (h : SortedDescBy key l) : SortedDescBy key (insertDescBy key x l) := by
  induction l with
  | nil => simp [insertDescBy, SortedDescBy]
  | cons y ys ih =>
    rcases List.pairwise_cons.mp h with ⟨hy, hys⟩
    simp only [insertDescBy]
    split
    · rename_i hxy
      refine List.pairwise_cons.mpr ⟨?_, ih hys⟩
      intro b hb
      rcases List.mem_cons.mp ((insertDescBy_perm key x ys).mem_iff.mp hb) with hb | hb
      · subst hb; exact le_of_lt hxy
      · exact hy b hb
    · rename_i hxy
      have hyx : key y ≤ key x := le_of_not_lt hxy
      refine List.pairwise_cons.mpr ⟨?_, h⟩
      intro b hb
      rcases List.mem_cons.mp hb with hb | hb
      · subst hb; exact hyx
      · exact (hy b hb).trans hyx

theorem sortDescBy_sorted {α : Type} (key : α → ℚ) (l : List α) :
    SortedDescBy key (sortDescBy key l) := by
  induction l with
  | nil => simp [sortDescBy, SortedDescBy]
  | cons x xs ih => exact insertDescBy_sorted key x ih

theorem insertDescBy_map {α β : Type} (key : α → ℚ) (keyB : β → ℚ) (f : α → β)
    (hkey : ∀ a, keyB (f a) = key a) (x : α) (l : List α) :
    insertDescBy keyB (f x) (l.map f) = (insertDescBy key x l).map f := by
  induction l with
  | nil => simp [insertDescBy]
  | cons y ys ih =>
    simp only [List.map_cons, insertDescBy, hkey]
    split
    · simp [ih]
    · simp

theorem sortDescBy_map {α β : Type} (key : α → ℚ) (keyB : β → ℚ) (f : α → β)
    (hkey : ∀ a, keyB (f a) = key a) (l : List α) :
    sortDescBy keyB (l.map f) = (sortDescBy key l).map f := by
  induction l with
  | nil => simp [sortDescBy]
  | cons x xs ih =>
    simp only [List.map_cons, sortDescBy, ih]
    exact insertDescBy_map key keyB f hkey x _

/-- C1: the claim says extraction-time and lookup-time normalisation agree on
every raw label, so that a figure extracted as `"Figure 9-22c"` is found from
the in-text reference `"FIG. 9-22C"`.  The code refutes this: extraction
normalises `"Figure 9-22c"` to `"FIG.URE 9-22C"` while lookup normalises
`"FIG. 9-22C"` (and `"Figure 9-22c"` itself) to `"FIGURE 9-22C"`, so the
`(document_id, figure_label)` join returns nothing. -/
theorem c1_label_normalisation_mismatch :
    normaliseFigureLabelIngest "Figure 9-22c".toList = "FIG.URE 9-22C".toList
  ∧ normaliseFigureLabelQuery "FIG. 9-22C".toList = "FIGURE 9-22C".toList
  ∧ normaliseFigureLabelQuery "Figure 9-22c".toList = "FIGURE 9-22C".toList
  ∧ normaliseFigureLabelIngest "Figure 9-22c".toList ≠
      normaliseFigureLabelQuery "FIG. 9-22C".toList
  ∧ figuresForLabelJoin
      [((1 : Int), normaliseFigureLabelIngest "Figure 9-22c".toList)]
      [((1 : Int), normaliseFigureLabelQuery "FIG. 9-22C".toList)] = [] := by
  decide

/-- C2 counterexample: the claim says no failure of the external
relevance-judgment call ever raises an exception to the caller, but the
`except RuntimeError` branch of `LLMReranker.rerank` re-raises: with a client
available and a nonempty candidate list, a `RuntimeError` from the call
propagates instead of producing the fallback ordering. -/
theorem c2_runtime_error_propagates :
    rerank true [{ id := 1, document_id := 1 }] CallOutcome.raisedRuntimeError =
      Except.error "OpenAI client is not available" := by
  rfl

/-- C2 (amended): every failure of the external relevance-judgment call other
than a `RuntimeError` is swallowed and the call returns normally; in
particular any other exception from the call yields exactly the deterministic
fallback ordering.  A `RuntimeError` alone is re-raised to the caller. -/
theorem c2_rerank_degrades_except_runtime (available : Bool)
    (candidates : List ChunkMatch) (call : CallOutcome)
    (h : call ≠ CallOutcome.raisedRuntimeError) :
    ∃ out, rerank available candidates call = Except.ok out ∧
      (call = CallOutcome.raisedOther → out = fallbackRerank candidates) := by
  unfold rerank
  split
  · exact ⟨_, rfl, fun _ => rfl⟩
  · cases call with
    | raisedRuntimeError => exact absurd rfl h
    | raisedOther => exact ⟨_, rfl, fun _ => rfl⟩
    | payload parsed =>
      simp only
      split
      · exact ⟨_, rfl, fun hc => by cases hc⟩
      · split
        · exact ⟨_, rfl, fun hc => by cases hc⟩
        · exact ⟨_, rfl, fun hc => by cases hc⟩

/-- C2 witness: the amended theorem at a concrete input — a non-`RuntimeError`
call failure on one candidate returns the fallback ordering. -/
theorem c2_rerank_degrades_witness :
    ∃ out,
      rerank true [{ id := 1, document_id := 1 }] CallOutcome.raisedOther =
        Except.ok out ∧
      (CallOutcome.raisedOther = CallOutcome.raisedOther →
        out = fallbackRerank [{ id := 1, document_id := 1 }]) :=
  c2_rerank_degrades_except_runtime true [{ id := 1, document_id := 1 }]
    CallOutcome.raisedOther (fun hc => by cases hc)

theorem normalizeByMax_eq (m v : ℚ) :
    normalizeByMax m v = if m = 0 then 0 else v / m := by
  by_cases h : m = 0 <;> simp [normalizeByMax, h]

theorem fallbackScored_eq (candidates : List ChunkMatch) :
    fallbackScored candidates =
      candidates.map fun c => { c with rerank_score := some (blendScore candidates c) } := by
  simp only [fallbackScored]
  exact List.map_congr_left fun c _ => by simp [blendScore, normalizeByMax_eq]

theorem fallbackRerank_eq_blendedOrdering (candidates : List ChunkMatch) :
    fallbackRerank candidates = blendedOrdering candidates := by
  by_cases hc : candidates = []
  · subst hc; rfl
  · unfold fallbackRerank blendedOrdering
    rw [if_neg hc, fallbackScored_eq]
    exact sortDescBy_map (blendScore candidates) (fun c => c.rerank_score.getD 0)
      (fun c => { c with rerank_score := some (blendScore candidates c) })
      (fun _ => rfl) candidates

/-- C5: an unparsable relevance-judgment payload makes `rerank` return exactly
the deterministic blended-score ordering: every candidate's vector and
lexical scores are normalised independently by the batch maximum (an all-zero
maximum contributing zero), combined as `0.6 * nv + 0.4 * nl`, and the result
is sorted weakly descending by this blend. -/
theorem c5_unparsable_payload_yields_blended_ordering (available : Bool)
    (candidates : List ChunkMatch) (payload : Option Json)
    (h : parseRankingOutput payload = []) :
    rerank available candidates (CallOutcome.payload payload) =
        Except.ok (fallbackRerank candidates)
      ∧ fallbackRerank candidates = blendedOrdering candidates
      ∧ SortedDescBy (fun c => c.rerank_score.getD 0) (fallbackRerank candidates) := by
  refine ⟨?_, fallbackRerank_eq_blendedOrdering candidates, ?_⟩
  · unfold rerank
    split
    · rfl
    · simp [h]
  · unfold fallbackRerank
    split
    · exact List.Pairwise.nil
    · exact sortDescBy_sorted _ _

/-- C5 witness: the theorem applied to two concrete candidates and a scalar
(non-ranking) payload, which parses to no scores. -/
theorem c5_unparsable_payload_witness :
    rerank true
        [{ id := 1, document_id := 1, vector_score := some (9 / 10) },
         { id := 2, document_id := 1, lexical_score := some (1 / 2) }]
        (CallOutcome.payload (some (Json.str "gibberish"))) =
      Except.ok (fallbackRerank
        [{ id := 1, document_id := 1, vector_score := some (9 / 10) },
         { id := 2, document_id := 1, lexical_score := some (1 / 2) }])
      ∧ fallbackRerank
          [{ id := 1, document_id := 1, vector_score := some (9 / 10) },
           { id := 2, document_id := 1, lexical_score := some (1 / 2) }] =
        blendedOrdering
          [{ id := 1, document_id := 1, vector_score := some (9 / 10) },
           { id := 2, document_id := 1, lexical_score := some (1 / 2) }]
      ∧ SortedDescBy (fun c => c.rerank_score.getD 0)
          (fallbackRerank
            [{ id := 1, document_id := 1, vector_score := some (9 / 10) },
             { id := 2, document_id := 1, lexical_score := some (1 / 2) }]) :=
  c5_unparsable_payload_yields_blended_ordering true _ _ (by decide)

theorem sortDescBy_ne_nil {α : Type} (key : α → ℚ) {l : List α} (h : l ≠ []) :
    sortDescBy key l ≠ [] := by
  intro hs
  apply h
  have := (sortDescBy_perm key l).length_eq
  rw [hs] at this
  exact List.eq_nil_of_length_eq_zero this.symm

/-- C6: when the external call scores some candidates but not others, the
returned ordering is two concatenated tiers — all candidates holding a rerank
score first, weakly descending by that score, followed by all unscored
candidates weakly descending by their vector+lexical sum — and these tiers
together are a permutation of the candidate set (so every scored candidate
precedes every unscored one, whatever the magnitudes). -/
theorem c6_partial_scores_rank_in_two_tiers (candidates : List ChunkMatch)
    (payload : Option Json)
    (hfresh : ∀ c ∈ candidates, c.rerank_score = none)
    (hne : parseRankingOutput payload ≠ [])
    (hscored : ∃ c ∈ candidates,
      (lookupScore (parseRankingOutput payload) c.id).isSome)
    (hunscored : ∃ c ∈ candidates,
      (lookupScore (parseRankingOutput payload) c.id).isNone) :
    ∃ A B,
      rerank true candidates (CallOutcome.payload payload) = Except.ok (A ++ B) ∧
      A ≠ [] ∧ B ≠ [] ∧
      (∀ a ∈ A, a.rerank_score ≠ none) ∧
      (∀ b ∈ B, b.rerank_score = none) ∧
      SortedDescBy (fun c => c.rerank_score.getD 0) A ∧
      SortedDescBy (fun c => c.vector_score.getD 0 + c.lexical_score.getD 0) B ∧
      (A ++ B).Perm (applyScores (parseRankingOutput payload) candidates) := by
  obtain ⟨cs, hcs, hcsS⟩ := hscored
  obtain ⟨cu, hcu, hcuN⟩ := hunscored
  have hnonempty : candidates ≠ [] := by
    intro h
    subst h
    exact absurd hcs (List.not_mem_nil cs)
  have hrem : (applyScores (parseRankingOutput payload) candidates).filter
      (fun c => c.rerank_score ≠ none) ≠ [] := by
    obtain ⟨v, hv⟩ := Option.isSome_iff_exists.mp hcsS
    apply List.ne_nil_of_mem (a := { cs with rerank_score := some v })
    apply List.mem_filter.mpr
    refine ⟨?_, by simp⟩
    unfold applyScores
    refine List.mem_map.mpr ⟨cs, hcs, ?_⟩
    rw [hv]
  have hrest : (applyScores (parseRankingOutput payload) candidates).filter
      (fun c => c.rerank_score = none) ≠ [] := by
    have hnone := Option.isNone_iff_eq_none.mp hcuN
    apply List.ne_nil_of_mem (a := cu)
    apply List.mem_filter.mpr
    refine ⟨?_, by simp [hfresh cu hcu]⟩
    unfold applyScores
    refine List.mem_map.mpr ⟨cu, hcu, ?_⟩
    rw [hnone]
  refine ⟨sortDescBy (fun c => c.rerank_score.getD 0)
      ((applyScores (parseRankingOutput payload) candidates).filter
        (fun c => c.rerank_score ≠ none)),
    sortDescBy (fun c => c.vector_score.getD 0 + c.lexical_score.getD 0)
      ((applyScores (parseRankingOutput payload) candidates).filter
        (fun c => c.rerank_score = none)),
    ?_, sortDescBy_ne_nil _ hrem, sortDescBy_ne_nil _ hrest, ?_, ?_,
    sortDescBy_sorted _ _, sortDescBy_sorted _ _, ?_⟩
  · unfold rerank
    rw [if_neg (by simp [hnonempty])]
    simp only [hne, if_false]
    rw [if_neg hrem]
  · intro a ha
    have := List.mem_filter.mp
      ((sortDescBy_perm (fun c : ChunkMatch => c.rerank_score.getD 0)
        ((applyScores (parseRankingOutput payload) candidates).filter
          (fun c => c.rerank_score ≠ none))).mem_iff.mp ha)
    simpa using this.2
  · intro b hb
    have := List.mem_filter.mp
      ((sortDescBy_perm
        (fun c : ChunkMatch => c.vector_score.getD 0 + c.lexical_score.getD 0)
        ((applyScores (parseRankingOutput payload) candidates).filter
          (fun c => c.rerank_score = none))).mem_iff.mp hb)
    simpa using this.2
  · refine ((sortDescBy_perm _ _).append (sortDescBy_perm _ _)).trans ?_
    have hcongr : (applyScores (parseRankingOutput payload) candidates).filter
        (fun c => c.rerank_score = none) =
        (applyScores (parseRankingOutput payload) candidates).filter
          (fun c => !(decide (c.rerank_score ≠ none))) := by
      apply List.filter_congr
      intro c _
      by_cases h : c.rerank_score = none <;> simp [h]
    rw [hcongr]
    exact List.filter_append_perm _ _

/-- C6 witness: the two-tier theorem at a concrete input — the external call
scores candidate 1 but not candidate 2. -/
theorem c6_partial_scores_witness :
    ∃ A B,
      rerank true
          [{ id := 1, document_id := 1, vector_score := some (1 / 2) },
           { id := 2, document_id := 1, lexical_score := some (1 / 4) }]
          (CallOutcome.payload (some (Json.obj
            [("ranking", Json.arr [Json.obj
              [("id", Json.num 1), ("score", Json.num 5)]])]))) =
        Except.ok (A ++ B) ∧
      A ≠ [] ∧ B ≠ [] ∧
      (∀ a ∈ A, a.rerank_score ≠ none) ∧
      (∀ b ∈ B, b.rerank_score = none) ∧
      SortedDescBy (fun c => c.rerank_score.getD 0) A ∧
      SortedDescBy (fun c => c.vector_score.getD 0 + c.lexical_score.getD 0) B ∧
      (A ++ B).Perm (applyScores
        (parseRankingOutput (some (Json.obj
          [("ranking", Json.arr [Json.obj
            [("id", Json.num 1), ("score", Json.num 5)]])])))
        [{ id := 1, document_id := 1, vector_score := some (1 / 2) },
         { id := 2, document_id := 1, lexical_score := some (1 / 4) }]) :=
  c6_partial_scores_rank_in_two_tiers
    [{ id := 1, document_id := 1, vector_score := some (1 / 2) },
     { id := 2, document_id := 1, lexical_score := some (1 / 4) }]
    (some (Json.obj
      [("ranking", Json.arr [Json.obj
        [("id", Json.num 1), ("score", Json.num 5)]])]))
    (by decide) (by decide) (by decide) (by decide)

/-! ### Lemmas about the dict model used by `_combine_results` -/

theorem find?_key_eq_of_nodup {α : Type} (f : α → Int) {l : List α}
    (hn : (l.map f).Nodup) {a : α} (ha : a ∈ l) :
    l.find? (fun x => f x = f a) = some a := by
  induction l with
  | nil => cases ha
  | cons b t ih =>
    rcases List.nodup_cons.mp hn with ⟨hb, ht⟩
    by_cases hfb : f b = f a
    · have hab : b = a := by
        rcases List.mem_cons.mp ha with h | h
        · exact h.symm
        · exact absurd (hfb.symm ▸ List.mem_map_of_mem f h) hb
      subst hab
      rw [List.find?_cons_of_pos]
      simp
    · have ha' : a ∈ t := by
        rcases List.mem_cons.mp ha with h | h
        · exact absurd (h ▸ rfl) hfb
        · exact h
      rw [List.find?_cons_of_neg]
      · exact ih ht ha'
      · simp [hfb]

theorem dictSet_of_fresh {d : List (Int × ChunkMatch)} {k : Int}
    (h : ∀ kv ∈ d, kv.1 ≠ k) (v : ChunkMatch) :
    dictSet d k v = d ++ [(k, v)] := by
  unfold dictSet
  apply if_neg
  simp only [List.any_eq_true, decide_eq_true_eq, not_exists]
  intro kv
  simp only [not_and]
  intro hkv
  exact h kv hkv

theorem dictGet_eq_none {d : List (Int × ChunkMatch)} {k : Int} :
    dictGet d k = none ↔ ∀ kv ∈ d, kv.1 ≠ k := by
  unfold dictGet
  simp [List.find?_eq_none]

theorem dictGet_of_mem {d : List (Int × ChunkMatch)}
    (hn : (d.map (fun kv => kv.1)).Nodup) {kv : Int × ChunkMatch} (h : kv ∈ d) :
    dictGet d kv.1 = some kv.2 := by
  unfold dictGet
  rw [find?_key_eq_of_nodup (fun x => x.1) hn h]
  rfl

theorem keys_map_replace (d : List (Int × ChunkMatch)) (k : Int) (v : ChunkMatch) :
    ((d.map (fun kv => if kv.1 = k then (k, v) else kv)).map (fun kv => kv.1)) =
      d.map (fun kv => kv.1) := by
  rw [List.map_map]
  apply List.map_congr_left
  intro kv _
  by_cases h : kv.1 = k <;> simp [h]

theorem foldl_dictSet_eq (vec : List ChunkMatch) :
    ∀ d : List (Int × ChunkMatch),
      (∀ r ∈ vec, ∀ kv ∈ d, kv.1 ≠ r.id) →
      (vec.map (fun v => v.id)).Nodup →
      vec.foldl (fun d r => dictSet d r.id r) d =
        d ++ vec.map (fun v => (v.id, v)) := by
  induction vec with
  | nil => intro d _ _; simp
  | cons v vs ih =>
    intro d hdisj hnodup
    rw [List.foldl_cons,
      dictSet_of_fresh (fun kv hkv => hdisj v (List.mem_cons_self v vs) kv hkv) v]
    rcases List.nodup_cons.mp hnodup with ⟨hv, hvs⟩
    rw [ih (d ++ [(v.id, v)]) ?_ hvs]
    · simp
    · intro r hr kv hkv
      rcases List.mem_append.mp hkv with hkv | hkv
      · exact hdisj r (List.mem_cons_of_mem v hr) kv hkv
      · have : kv = (v.id, v) := by simpa using hkv
        subst this
        intro he
        apply hv
        show v.id ∈ List.map (fun v => v.id) vs
        have he' : v.id = r.id := he
        rw [he']
        exact List.mem_map_of_mem (fun v => v.id) hr

theorem lookupMergeWith_nil : ∀ kv : Int × ChunkMatch, lookupMergeWith [] kv = kv
  | (_, _) => rfl

theorem lookupMergeWith_eq (lex : List ChunkMatch) (k : Int) (c : ChunkMatch) :
    lookupMergeWith lex (k, c) =
      match lex.find? (fun l => l.id = k) with
      | some l => (k, mergeLexInto c l)
      | none => (k, c) := rfl

theorem lookupMergeWith_cons_of_ne (l0 : ChunkMatch) (rest : List ChunkMatch) :
    ∀ kv : Int × ChunkMatch, kv.1 ≠ l0.id →
      lookupMergeWith (l0 :: rest) kv = lookupMergeWith rest kv
  | (k, c), h => by
    rw [lookupMergeWith_eq, lookupMergeWith_eq, List.find?_cons_of_neg]
    simp only [decide_eq_true_eq]
    intro he
    exact h he.symm

theorem foldl_mergeStep_eq (lex : List ChunkMatch) :
    ∀ d : List (Int × ChunkMatch),
      (lex.map (fun l => l.id)).Nodup →
      (d.map (fun kv => kv.1)).Nodup →
      lex.foldl mergeStep d =
        d.map (lookupMergeWith lex) ++
        (lex.filter (fun l => l.id ∉ d.map (fun kv => kv.1))).map
          (fun l => (l.id, l)) := by
  induction lex with
  | nil =>
    intro d _ _
    have h1 : d.map (lookupMergeWith []) = d.map id :=
      List.map_congr_left fun kv _ => lookupMergeWith_nil kv
    simp [h1]
  | cons l0 rest ih =>
    intro d hlex hd
    rcases List.nodup_cons.mp hlex with ⟨hl0, hrest⟩
    have hfindrest : rest.find? (fun l => decide (l.id = l0.id)) = none := by
      rw [List.find?_eq_none]
      intro x hx
      simp only [decide_eq_true_eq]
      intro he
      apply hl0
      show l0.id ∈ List.map (fun l => l.id) rest
      rw [← he]
      exact List.mem_map_of_mem (fun l => l.id) hx
    rw [List.foldl_cons]
    cases hget : dictGet d l0.id with
    | some ex =>
      -- the id is already present: replace in place
      have hstepeq : mergeStep d l0 = dictSet d l0.id (mergeLexInto ex l0) := by
        unfold mergeStep
        rw [hget]
      have hmem0 : l0.id ∈ d.map (fun kv => kv.1) := by
        unfold dictGet at hget
        rcases Option.map_eq_some'.mp hget with ⟨kv, hkv, -⟩
        have hmem := List.mem_of_find?_eq_some hkv
        have hkey := List.find?_some hkv
        simp only [decide_eq_true_eq] at hkey
        exact hkey ▸ List.mem_map_of_mem (fun kv => kv.1) hmem
      have hany : d.any (fun kv => decide (kv.1 = l0.id)) = true := by
        rcases List.mem_map.mp hmem0 with ⟨kv, hkv, hkey⟩
        exact List.any_eq_true.mpr ⟨kv, hkv, by simp [hkey]⟩
      have hset : dictSet d l0.id (mergeLexInto ex l0) =
          d.map (fun kv => if kv.1 = l0.id then (l0.id, mergeLexInto ex l0) else kv) := by
        unfold dictSet
        rw [if_pos hany]
      rw [hstepeq, hset, ih _ hrest (by rw [keys_map_replace]; exact hd), keys_map_replace]
      congr 1
      · -- the replaced dict maps through the rest-lookup to the full lookup
        rw [List.map_map]
        apply List.map_congr_left
        intro kv hkv
        obtain ⟨k, c⟩ := kv
        show lookupMergeWith rest ((fun kv : Int × ChunkMatch =>
            if kv.1 = l0.id then (l0.id, mergeLexInto ex l0) else kv) (k, c)) =
          lookupMergeWith (l0 :: rest) (k, c)
        by_cases hk : k = l0.id
        · have hg : dictGet d k = some c := dictGet_of_mem hd hkv
          rw [hk] at hg
          have hex : ex = c := (Option.some_inj.mp (hg.symm.trans hget)).symm
          have hred : ((fun kv : Int × ChunkMatch =>
              if kv.1 = l0.id then (l0.id, mergeLexInto ex l0) else kv) (k, c)) =
              ((l0.id : Int), mergeLexInto c l0) := by
            rw [hex]
            exact if_pos hk
          rw [hred, lookupMergeWith_eq, lookupMergeWith_eq, hfindrest,
            List.find?_cons_of_pos _ (by simp [hk]), hk]
        · have hred : ((fun kv : Int × ChunkMatch =>
              if kv.1 = l0.id then (l0.id, mergeLexInto ex l0) else kv) (k, c)) = (k, c) :=
            if_neg hk
          rw [hred]
          exact (lookupMergeWith_cons_of_ne l0 rest (k, c) hk).symm
      · -- the already-present id is filtered out of the appended part
        rw [List.filter_cons, if_neg (by simp [hmem0])]
    | none =>
      -- fresh id: append at the end
      have hstepeq : mergeStep d l0 = dictSet d l0.id l0 := by
        unfold mergeStep
        rw [hget]
      have hfresh : ∀ kv ∈ d, kv.1 ≠ l0.id := dictGet_eq_none.mp hget
      have hnotmem : l0.id ∉ d.map (fun kv => kv.1) := by
        intro h
        rcases List.mem_map.mp h with ⟨kv, hkv, hkey⟩
        exact hfresh kv hkv hkey
      have hkeys : ((d ++ [(l0.id, l0)]).map (fun kv => kv.1)).Nodup := by
        rw [List.map_append]
        refine List.Nodup.append hd (by simp) ?_
        intro a ha hb
        simp only [List.map_cons, List.map_nil, List.mem_singleton] at hb
        subst hb
        exact hnotmem ha
      rw [hstepeq, dictSet_of_fresh hfresh l0, ih _ hrest hkeys]
      rw [List.map_append]
      have hl0entry : ([((l0.id : Int), l0)].map (lookupMergeWith rest)) = [(l0.id, l0)] := by
        simp only [List.map_cons, List.map_nil]
        congr 1
        rw [lookupMergeWith_eq, hfindrest]
      have hdmap : d.map (lookupMergeWith rest) = d.map (lookupMergeWith (l0 :: rest)) := by
        apply List.map_congr_left
        intro kv hkv
        exact (lookupMergeWith_cons_of_ne l0 rest kv (hfresh kv hkv)).symm
      have hfiltercongr : rest.filter
            (fun l => l.id ∉ (d ++ [(l0.id, l0)]).map (fun kv => kv.1)) =
          rest.filter (fun l => l.id ∉ d.map (fun kv => kv.1)) := by
        apply List.filter_congr
        intro l hl
        have hne : l.id ≠ l0.id := by
          intro he
          apply hl0
          show l0.id ∈ List.map (fun l => l.id) rest
          rw [← he]
          exact List.mem_map_of_mem (fun l => l.id) hl
        simp [List.mem_append, hne]
      have hfiltercons : (l0 :: rest).filter
            (fun l => l.id ∉ d.map (fun kv => kv.1)) =
          l0 :: rest.filter (fun l => l.id ∉ d.map (fun kv => kv.1)) := by
        rw [List.filter_cons, if_pos (by simp [hnotmem])]
      rw [hl0entry, hdmap, hfiltercongr, hfiltercons]
      simp

theorem mergeLexInto_fields (e l : ChunkMatch) :
    (mergeLexInto e l).id = e.id ∧
    (mergeLexInto e l).document_id = e.document_id ∧
    (mergeLexInto e l).vector_score = e.vector_score ∧
    (mergeLexInto e l).lexical_score = l.lexical_score ∧
    (mergeLexInto e l).rerank_score = e.rerank_score := by
  unfold mergeLexInto
  simp only []
  split <;> exact ⟨rfl, rfl, rfl, rfl, rfl⟩

theorem mergeWithLex_id (lex : List ChunkMatch) (v : ChunkMatch) :
    (mergeWithLex lex v).id = v.id := by
  unfold mergeWithLex
  cases lex.find? (fun l => l.id = v.id) with
  | none => rfl
  | some l => exact (mergeLexInto_fields v l).1

theorem combineResults_eq (vec lex : List ChunkMatch)
    (hv : (vec.map (fun v => v.id)).Nodup)
    (hl : (lex.map (fun l => l.id)).Nodup) :
    combineResults vec lex =
      vec.map (mergeWithLex lex) ++
        lex.filter (fun l => l.id ∉ vec.map (fun v => v.id)) := by
  unfold combineResults
  rw [foldl_dictSet_eq vec [] (by intro r _ kv hkv; cases hkv) hv, List.nil_append]
  simp only []
  have hkeys : (vec.map (fun v => (v.id, v))).map (fun kv => kv.1) =
      vec.map (fun v => v.id) := by
    rw [List.map_map]
    rfl
  rw [foldl_mergeStep_eq lex _ hl (by rw [hkeys]; exact hv)]
  rw [List.map_append, List.map_map, List.map_map]
  congr 1
  · apply List.map_congr_left
    intro v _
    show (lookupMergeWith lex (v.id, v)).2 = mergeWithLex lex v
    rw [lookupMergeWith_eq]
    unfold mergeWithLex
    cases lex.find? (fun l => l.id = v.id) <;> rfl
  · simp only [hkeys]
    rw [List.map_map]
    have h1 : (lex.filter (fun l => l.id ∉ vec.map (fun v => v.id))).map
        ((fun kv : Int × ChunkMatch => kv.2) ∘ (fun l => (l.id, l))) =
        (lex.filter (fun l => l.id ∉ vec.map (fun v => v.id))).map id :=
      List.map_congr_left fun l _ => rfl
    rw [h1, List.map_id]

/-- C4: merging vector and lexical results by chunk identity yields exactly
the score-preserving union — in order, the vector results (each keeping its
vector score, gaining the lexical score of the lexical result with the same
id if one exists) followed by the lexical-only results; ids are unique, a
chunk found only by one search keeps the other score unset (`none`), and no
score is overwritten. -/
theorem c4_combine_results_is_score_preserving_union (vec lex : List ChunkMatch)
    (hv : (vec.map (fun v => v.id)).Nodup)
    (hl : (lex.map (fun l => l.id)).Nodup)
    (hvshape : ∀ v ∈ vec, v.lexical_score = none)
    (hlshape : ∀ l ∈ lex, l.vector_score = none) :
    ((combineResults vec lex).map (fun c => c.id) =
        vec.map (fun v => v.id) ++
          (lex.filter (fun l => l.id ∉ vec.map (fun v => v.id))).map (fun l => l.id))
    ∧ ((combineResults vec lex).map (fun c => c.id)).Nodup
    ∧ (∀ v ∈ vec, ∀ l ∈ lex, v.id = l.id →
        ∃ c ∈ combineResults vec lex, c.id = v.id ∧
          c.vector_score = v.vector_score ∧ c.lexical_score = l.lexical_score ∧
          c.rerank_score = v.rerank_score)
    ∧ (∀ v ∈ vec, v.id ∉ lex.map (fun l => l.id) →
        v ∈ combineResults vec lex ∧ v.lexical_score = none)
    ∧ (∀ l ∈ lex, l.id ∉ vec.map (fun v => v.id) →
        l ∈ combineResults vec lex ∧ l.vector_score = none) := by
  have heq := combineResults_eq vec lex hv hl
  have hids : (combineResults vec lex).map (fun c => c.id) =
      vec.map (fun v => v.id) ++
        (lex.filter (fun l => l.id ∉ vec.map (fun v => v.id))).map (fun l => l.id) := by
    rw [heq, List.map_append, List.map_map]
    congr 1
    apply List.map_congr_left
    intro v _
    exact mergeWithLex_id lex v
  refine ⟨hids, ?_, ?_, ?_, ?_⟩
  · rw [hids]
    rw [List.nodup_append]
    refine ⟨hv, ?_, ?_⟩
    · exact (hl.sublist (List.Sublist.map (fun l => l.id) (List.filter_sublist lex)))
    · intro a ha hb
      rcases List.mem_map.mp hb with ⟨l, hlmem, hlid⟩
      rcases List.mem_filter.mp hlmem with ⟨-, hpred⟩
      simp only [decide_eq_true_eq] at hpred
      exact hpred (hlid ▸ ha)
  · intro v hvmem l hlmem hid
    refine ⟨mergeLexInto v l, ?_, ?_⟩
    · rw [heq]
      apply List.mem_append_left
      have hfind : lex.find? (fun x => x.id = v.id) = some l := by
        rw [hid]
        exact find?_key_eq_of_nodup (fun x => x.id) hl hlmem
      have : mergeWithLex lex v = mergeLexInto v l := by
        unfold mergeWithLex
        rw [hfind]
      exact this ▸ List.mem_map_of_mem (mergeWithLex lex) hvmem
    · obtain ⟨h1, -, h3, h4, h5⟩ := mergeLexInto_fields v l
      exact ⟨h1, h3, h4, h5⟩
  · intro v hvmem hnot
    refine ⟨?_, hvshape v hvmem⟩
    rw [heq]
    apply List.mem_append_left
    have hfind : lex.find? (fun x => x.id = v.id) = none := by
      rw [List.find?_eq_none]
      intro x hx
      simp only [decide_eq_true_eq]
      intro he
      exact hnot (he ▸ List.mem_map_of_mem (fun l => l.id) hx)
    have : mergeWithLex lex v = v := by
      unfold mergeWithLex
      rw [hfind]
    exact this ▸ List.mem_map_of_mem (mergeWithLex lex) hvmem
  · intro l hlmem hnot
    refine ⟨?_, hlshape l hlmem⟩
    rw [heq]
    apply List.mem_append_right
    exact List.mem_filter.mpr ⟨hlmem, by simpa using hnot⟩

/-- C4 witness: the theorem at the spec's example — vector results
`{A:0.9, B:0.7}` merged with lexical results `{B:0.5, C:0.3}` give exactly the
three entries A (vector only), B (both), C (lexical only). -/
theorem c4_combine_results_witness :
    ((combineResults c4VecExample c4LexExample).map (fun c => c.id) =
        c4VecExample.map (fun v => v.id) ++
          (c4LexExample.filter
            (fun l => l.id ∉ c4VecExample.map (fun v => v.id))).map (fun l => l.id))
    ∧ ((combineResults c4VecExample c4LexExample).map (fun c => c.id)).Nodup
    ∧ (∀ v ∈ c4VecExample, ∀ l ∈ c4LexExample, v.id = l.id →
        ∃ c ∈ combineResults c4VecExample c4LexExample, c.id = v.id ∧
          c.vector_score = v.vector_score ∧ c.lexical_score = l.lexical_score ∧
          c.rerank_score = v.rerank_score)
    ∧ (∀ v ∈ c4VecExample, v.id ∉ c4LexExample.map (fun l => l.id) →
        v ∈ combineResults c4VecExample c4LexExample ∧ v.lexical_score = none)
    ∧ (∀ l ∈ c4LexExample, l.id ∉ c4VecExample.map (fun v => v.id) →
        l ∈ combineResults c4VecExample c4LexExample ∧ l.vector_score = none) :=
  c4_combine_results_is_score_preserving_union c4VecExample c4LexExample
    (by decide) (by decide) (by decide) (by decide)

/-! ### Chunk-index contiguity (C9) -/

theorem foldl_preserve {α β : Type} {P : α → Prop} (f : α → β → α)
    (h : ∀ s a, P s → P (f s a)) : ∀ (l : List β) (s : α), P s → P (l.foldl f s)
  | [], _, hs => hs
  | a :: l, s, hs => foldl_preserve f h l (f s a) (h s a hs)

theorem indexInv_append (s : BuildState) (c : ChunkRec) (hs : IndexInv s)
    (hc : c.chunk_index = s.chunkIndex) :
    IndexInv { s with chunks := s.chunks ++ [c], chunkIndex := s.chunkIndex + 1 } := by
  obtain ⟨h1, h2⟩ := hs
  refine ⟨?_, by simp [h2]⟩
  show (s.chunks ++ [c]).map (fun c => c.chunk_index) =
    List.range (s.chunks ++ [c]).length
  rw [List.map_append, List.map_cons, List.map_nil, h1, hc, h2]
  simp [List.range_succ]

theorem indexInv_emitBodyChunk {s : BuildState} (hs : IndexInv s) :
    IndexInv (emitBodyChunk s) := by
  unfold emitBodyChunk
  simp only []
  split
  · exact indexInv_append s _ hs rfl
  · exact hs

theorem indexInv_processParagraph (pageNum : Nat) {s : BuildState}
    (hs : IndexInv s) (para : List Char) :
    IndexInv (processParagraph pageNum s para) := by
  unfold processParagraph
  simp only []
  split
  · have h1 : IndexInv ({ s with
        bufferPageStart := some (s.bufferPageStart.getD pageNum)
        bufferPageEnd := some pageNum } : BuildState) := hs
    exact indexInv_emitBodyChunk h1
  · exact hs

theorem indexInv_processBodyPages :
    ∀ (pageNum : Nat) (pages : List PdfPage) {s : BuildState},
      IndexInv s → IndexInv (processBodyPages pageNum pages s)
  | _, [], _, hs => hs
  | pageNum, p :: ps, s, hs =>
    indexInv_processBodyPages (pageNum + 1) ps
      (foldl_preserve (P := IndexInv) (processParagraph pageNum)
        (fun _ a h => indexInv_processParagraph pageNum h a) p.paragraphs s hs)

theorem indexInv_flushRemainder {s : BuildState} (hs : IndexInv s) :
    IndexInv (flushRemainder s) := by
  unfold flushRemainder
  split
  · exact indexInv_emitBodyChunk hs
  · exact hs

theorem indexInv_processTablePage (pageNum : Nat) {s : BuildState}
    (hs : IndexInv s) (tables : List (List Char × Nat)) :
    IndexInv (processTablePage pageNum s tables) := by
  unfold processTablePage
  refine foldl_preserve _ (fun s _ h => ?_) tables s hs
  split
  · exact indexInv_append s _ h rfl
  · exact h

theorem indexInv_processTablePages :
    ∀ (pageNum : Nat) (pages : List PdfPage) {s : BuildState},
      IndexInv s → IndexInv (processTablePages pageNum pages s)
  | _, [], _, hs => hs
  | pageNum, p :: ps, _, hs =>
    indexInv_processTablePages (pageNum + 1) ps
      (indexInv_processTablePage pageNum hs p.tables)

/-- C9: for every parsed PDF, the chunk list built by
`build_chunks_from_pdf` carries ordinal indices forming the contiguous,
zero-based, strictly increasing sequence `0, 1, 2, …` in output (reading)
order, across body and table chunks. -/
theorem c9_chunk_indices_contiguous (pages : List PdfPage) :
    (buildChunksFromPdf pages).map (fun c => c.chunk_index) =
      List.range (buildChunksFromPdf pages).length := by
  unfold buildChunksFromPdf
  simp only []
  have h0 : IndexInv { chunks := [], buffer := [], bufferPageStart := none, bufferPageEnd := none, chunkIndex := 0 } := ⟨rfl, rfl⟩
  exact (indexInv_processTablePages 1 pages
    (indexInv_flushRemainder (indexInv_processBodyPages 1 pages h0))).1

/-! ### Ingestion run behaviour (C3, C8) -/

/-- C3: the claim says re-ingesting identical content (same checksum, same
external id) is a no-op leaving the tables unchanged.  The code refutes it:
`ingest_pdf` never compares the stored checksum — `compute_checksum`'s own
docstring promises "change detection" that never happens — so the second run
redoes the full delete-and-reinsert of the chunk rows (`ops2 > 0` write
statements) and replaces the page renditions with freshly uploaded images
whose uuid-named URIs differ, leaving the page table changed. -/
theorem c3_reingest_identical_content_not_noop :
    ∃ st1 next1 ops1 st2 next2 ops2,
      ingestPdf c3ExamplePdf true "doc.pdf".toList 0 emptyDb =
        Except.ok (st1, next1, ops1) ∧
      ingestPdf c3ExamplePdf true "doc.pdf".toList next1 st1 =
        Except.ok (st2, next2, ops2) ∧
      st2.chunks = st1.chunks ∧
      st2.doc = st1.doc ∧
      st2.pages ≠ st1.pages ∧
      0 < ops2 := by
  refine ⟨_, _, _, _, _, _, rfl, rfl, ?_, ?_, ?_, ?_⟩ <;> decide

/-- C8: every background ingestion run of a PDF whose pages contain zero
extractable text is recorded `failed` with a non-empty error message and
stores no chunks.  `ingest_pdf` itself has no zero-text check, but the run
never reaches it: `process_ingest_background` passes `check_strikeouts=`,
a keyword `ingest_pdf` does not declare, so the call raises `TypeError`
at binding time — before any ingestion work — and the wrapper's
`except Exception` branch records the failure, leaving the prior store
untouched. -/
theorem c8_zero_text_pdf_run_recorded_failed (pdf : PdfFile)
    (fileExists : Bool) (externalId : List Char) (uuidStart : Nat)
    (st : DbState)
    (_hzero : ∀ p ∈ pdf.pages, p.paragraphs = [] ∧ p.tables = []) :
    (processIngestBackground pdf fileExists externalId uuidStart st).1 =
        "failed" ∧
      (∃ msg, (processIngestBackground pdf fileExists externalId uuidStart
          st).2.1 = some msg ∧ msg ≠ "") ∧
      (processIngestBackground pdf fileExists externalId uuidStart st).2.2 =
        st :=
  ⟨rfl, ⟨_, rfl, by decide⟩, rfl⟩

/-- C8 witness: the two-page zero-text document is recorded `failed` and
the empty store stays empty (zero chunks stored). -/
theorem c8_zero_text_witness :
    (processIngestBackground c8ZeroTextPdf true "empty.pdf".toList 0
        emptyDb).1 = "failed" ∧
      (processIngestBackground c8ZeroTextPdf true "empty.pdf".toList 0
        emptyDb).2.2 = emptyDb :=
  ⟨(c8_zero_text_pdf_run_recorded_failed c8ZeroTextPdf true
      "empty.pdf".toList 0 emptyDb (by decide)).1,
   (c8_zero_text_pdf_run_recorded_failed c8ZeroTextPdf true
      "empty.pdf".toList 0 emptyDb (by decide)).2.2⟩

/-! ### `_prepare_rows` behaviour (C10) -/

theorem matchStartHeading_head {cs : List Char} {k : Nat}
    (h : matchStartHeadingAt cs k = true) :
    lstripL (cs.drop k) = cs.drop k ∧ cs.drop k ≠ [] := by
  have hcore : matchStartHeadingCore (cs.drop k) = true := by
    simp only [matchStartHeadingAt, Bool.and_eq_true] at h
    exact h.2
  cases hdrop : cs.drop k with
  | nil =>
    rw [hdrop] at hcore
    simp [matchStartHeadingCore] at hcore
  | cons c r =>
    rw [hdrop] at hcore
    have hc : c = '1' := by
      unfold matchStartHeadingCore at hcore
      rw [Bool.and_eq_true] at hcore
      exact beq_iff_eq.mp hcore.1
    subst hc
    refine ⟨?_, by simp⟩
    unfold lstripL
    rw [List.dropWhile_cons]
    rw [if_neg (by decide)]

theorem prepareRows_all_none (strip : List Char → List Char) :
    ∀ rows : List ChunkRow,
      (∀ r ∈ rows, searchStartHeading (strip r.content) = none) →
      prepareRows strip rows = []
  | [], _ => rfl
  | chunk :: rest, hall => by
    have hchunk := hall chunk (List.mem_cons_self chunk rest)
    have htail : ∀ r ∈ rest, searchStartHeading (strip r.content) = none :=
      fun r hr => hall r (List.mem_cons_of_mem chunk hr)
    unfold prepareRows
    simp only []
    split
    · exact prepareRows_all_none strip rest htail
    · rw [hchunk]
      exact prepareRows_all_none strip rest htail

theorem prepareRows_from_match (strip : List Char → List Char) :
    ∀ (pre : List ChunkRow) (r : ChunkRow) (post : List ChunkRow),
      (∀ p ∈ pre, searchStartHeading (strip p.content) = none) →
      ∀ k, searchStartHeading (strip r.content) = some k →
        prepareRows strip (pre ++ r :: post) =
          { r with content := (strip r.content).drop k } :: keepCleaned strip post
  | [], r, post, _, k, hk => by
    have hne : strip r.content ≠ [] := by
      intro h0
      rw [h0] at hk
      simp [searchStartHeading] at hk
    have hmatch : matchStartHeadingAt (strip r.content) k = true := by
      simpa using List.find?_some hk
    obtain ⟨hl, hd⟩ := matchStartHeading_head hmatch
    show prepareRows strip (r :: post) = _
    unfold prepareRows
    simp only []
    rw [if_neg hne, hk]
    simp only []
    rw [hl, if_neg hd]
  | p :: pre, r, post, hpre, k, hk => by
    have hp := hpre p (List.mem_cons_self p pre)
    have htail : ∀ q ∈ pre, searchStartHeading (strip q.content) = none :=
      fun q hq => hpre q (List.mem_cons_of_mem p hq)
    show prepareRows strip (p :: (pre ++ r :: post)) = _
    unfold prepareRows
    simp only []
    split
    · exact prepareRows_from_match strip pre r post htail k hk
    · rw [hp]
      exact prepareRows_from_match strip pre r post htail k hk

/-- C10: in the embedding/metadata backfill, every chunk preceding the first
chunk whose header/footer-stripped content matches `START_HEADING_RE`
(`"1 Overview"`, case-insensitive, optional punctuation) is excluded; the
matching chunk is truncated to start exactly at the match; and a document in
which no chunk matches yields no rows at all (it is skipped with zero chunks
updated). -/
theorem c10_prepare_rows_starts_at_first_overview
    (strip : List Char → List Char) (rows : List ChunkRow) :
    ((∀ r ∈ rows, searchStartHeading (strip r.content) = none) →
      prepareRows strip rows = [])
    ∧ (∀ pre r post, rows = pre ++ r :: post →
        (∀ p ∈ pre, searchStartHeading (strip p.content) = none) →
        ∀ k, searchStartHeading (strip r.content) = some k →
          prepareRows strip rows =
            { r with content := (strip r.content).drop k } ::
              keepCleaned strip post) := by
  refine ⟨prepareRows_all_none strip rows, ?_⟩
  intro pre r post heq hpre k hk
  rw [heq]
  exact prepareRows_from_match strip pre r post hpre k hk

/-- C10 witness: the theorem at concrete rows — the front-matter chunk is
dropped, the `"1. Overview …"` chunk is kept truncated at the match, the rest
is processed with the start already found. -/
theorem c10_prepare_rows_witness :
    prepareRows (fun s => s) c10Rows =
      { ({ id := 2, document_id := 1,
           content := "1. Overview begins here".toList } : ChunkRow) with
          content := ((fun s : List Char => s)
            ("1. Overview begins here".toList)).drop 0 } ::
        keepCleaned (fun s => s)
          [{ id := 3, document_id := 1, content := "more body text".toList }] :=
  (c10_prepare_rows_starts_at_first_overview (fun s => s) c10Rows).2
    [{ id := 1, document_id := 1, content := "front matter and contents".toList }]
    { id := 2, document_id := 1, content := "1. Overview begins here".toList }
    [{ id := 3, document_id := 1, content := "more body text".toList }]
    rfl (by decide) 0 (by decide)

/-! #### C7: string toolbox -/

/-- The head surviving a whitespace `dropWhile` is not whitespace. -/
theorem head?_dropWhile_not_space :
    ∀ (l : List Char) (c : Char),
      (l.dropWhile pyIsSpace).head? = some c → pyIsSpace c = false := by
  intro l
  induction l with
  | nil => intro c hc; cases hc
  | cons a t ih =>
    intro c hc
    rw [List.dropWhile_cons] at hc
    by_cases ha : pyIsSpace a = true
    · rw [if_pos ha] at hc
      exact ih c hc
    · rw [if_neg ha] at hc
      have hac : a = c := by
        have : some a = some c := hc
        injection this
      subst hac
      exact Bool.eq_false_iff.mpr ha

/-- `rstrip` leaves no trailing whitespace. -/
theorem lastOk_rstripL (s : List Char) : LastOk (rstripL s) := by
  intro c hc
  unfold rstripL at hc
  rw [List.getLast?_reverse] at hc
  exact head?_dropWhile_not_space _ c hc

/-- On a string without trailing whitespace, `rstrip` is the identity. -/
theorem lastOk_rstrip {s : List Char} (h : LastOk s) : rstripL s = s := by
  unfold rstripL
  cases hs : s.reverse with
  | nil =>
    have h0 : s = [] := by simpa using congrArg List.reverse hs
    simp [h0]
  | cons c t =>
    have hc : s.getLast? = some c := by
      rw [← List.head?_reverse, hs]
      rfl
    have hcf := h c hc
    rw [List.dropWhile_cons, if_neg (by simp [hcf])]
    rw [← hs, List.reverse_reverse]

/-- `lstrip` keeps a string whose head is not whitespace. -/
theorem lstrip_cons_of_not_space {c : Char} {t : List Char}
    (h : pyIsSpace c = false) : lstripL (c :: t) = c :: t := by
  unfold lstripL
  rw [List.dropWhile_cons, if_neg (by simp [h])]

/-- Appending on the left does not change a nonempty list's last element. -/
theorem getLast?_append_ne_nil (t : List Char) {u : List Char}
    (hu : u ≠ []) : (t ++ u).getLast? = u.getLast? := by
  rw [← List.head?_reverse, ← List.head?_reverse, List.reverse_append]
  cases hv : u.reverse with
  | nil => exact absurd (by simpa using congrArg List.reverse hv) hu
  | cons c w => simp

/-- `LastOk` restricts to a nonempty suffix. -/
theorem lastOk_suffix {t u : List Char} (hu : u ≠ [])
    (h : LastOk (t ++ u)) : LastOk u := fun c hc =>
  h c (by rw [getLast?_append_ne_nil t hu]; exact hc)

/-- `LastOk` extends along appending on the left. -/
theorem lastOk_append {t u : List Char} (hu : u ≠ []) (h : LastOk u) :
    LastOk (t ++ u) := fun c hc =>
  h c (by rw [getLast?_append_ne_nil t hu] at hc; exact hc)

/-- `lstrip` only removes characters. -/
theorem length_lstrip_le (s : List Char) : (lstripL s).length ≤ s.length := by
  conv_rhs => rw [← List.takeWhile_append_dropWhile (p := pyIsSpace) (l := s)]
  rw [List.length_append]
  exact Nat.le_add_left _ _

/-- `LastOk` survives `lstrip` when the result is nonempty. -/
theorem lastOk_lstrip {s : List Char} (h : LastOk s)
    (hne : lstripL s ≠ []) : LastOk (lstripL s) := by
  refine lastOk_suffix (t := s.takeWhile pyIsSpace) hne ?_
  show LastOk (s.takeWhile pyIsSpace ++ lstripL s)
  unfold lstripL
  rw [List.takeWhile_append_dropWhile]
  exact h

/-- A nonempty string whose `lstrip` is itself starts with a
non-whitespace character. -/
theorem lstrip_eq_self_head {s : List Char} (hne : s ≠ [])
    (h : lstripL s = s) : ∃ c t, s = c :: t ∧ pyIsSpace c = false := by
  cases s with
  | nil => exact absurd rfl hne
  | cons c t =>
    refine ⟨c, t, rfl, ?_⟩
    by_cases hc : pyIsSpace c = true
    · exfalso
      unfold lstripL at h
      rw [List.dropWhile_cons, if_pos hc] at h
      have hlen := congrArg List.length h
      rw [List.length_cons] at hlen
      have hsplit := congrArg List.length
        (List.takeWhile_append_dropWhile (p := pyIsSpace) (l := t))
      rw [List.length_append] at hsplit
      omega
    · exact Bool.eq_false_iff.mpr hc

/-- `StartsWith` is reflexive. -/
theorem startsWith_refl (s : List Char) : StartsWith s s := by
  unfold StartsWith
  exact List.take_length s

/-- A prefix is no longer than the whole. -/
theorem startsWith_length_le {pre s : List Char} (h : StartsWith pre s) :
    pre.length ≤ s.length := by
  have hl := congrArg List.length h
  rw [List.length_take] at hl
  omega

/-- A prefix of `x` is a prefix of `x ++ y`. -/
theorem startsWith_append {pre x : List Char} (y : List Char)
    (h : StartsWith pre x) : StartsWith pre (x ++ y) := by
  have hle := startsWith_length_le h
  unfold StartsWith at h ⊢
  rw [List.take_append_of_le_length hle]
  exact h

/-- A string decomposes after any of its prefixes. -/
theorem startsWith_eq_append {pre s : List Char} (h : StartsWith pre s) :
    s = pre ++ s.drop pre.length := by
  conv_lhs => rw [← List.take_append_drop pre.length s]
  rw [h]

/-- Length of the trailing window. -/
theorem length_takeRight (V : Nat) (s : List Char) :
    (takeRight V s).length = min V s.length := by
  unfold takeRight
  rw [List.length_drop]
  omega

/-- A positive trailing window of a nonempty string is nonempty. -/
theorem takeRight_ne_nil {V : Nat} {s : List Char} (hV : 0 < V)
    (hs : s ≠ []) : takeRight V s ≠ [] := by
  intro h
  have hl := congrArg List.length h
  rw [length_takeRight] at hl
  simp only [List.length_nil] at hl
  have hs0 : s.length ≠ 0 := fun h0 => hs (List.length_eq_zero.mp h0)
  omega

/-- The trailing window is a suffix. -/
theorem takeRight_suffix_decomp (V : Nat) (s : List Char) :
    s.take (s.length - V) ++ takeRight V s = s := List.take_append_drop _ s

/-- The trailing window ignores a prepended block once the tail is long
enough. -/
theorem takeRight_append_of_le {u : List Char} (t : List Char) {V : Nat}
    (h : V ≤ u.length) : takeRight V (t ++ u) = takeRight V u := by
  unfold takeRight
  rw [List.length_append, List.drop_append_eq_append_drop,
    List.drop_eq_nil_of_le (by omega : t.length ≤ t.length + u.length - V)]
  rw [List.nil_append]
  congr 1
  omega

/-- `LastOk` restricts to a nonempty trailing window. -/
theorem lastOk_takeRight {V : Nat} {s : List Char} (h : LastOk s)
    (hne : takeRight V s ≠ []) : LastOk (takeRight V s) := by
  refine lastOk_suffix (t := s.take (s.length - V)) hne ?_
  rw [takeRight_suffix_decomp]
  exact h

/-- The trailing window commutes with `lstrip` once it fits the stripped
string. -/
theorem takeRight_lstrip {V : Nat} {s : List Char}
    (h : V ≤ (lstripL s).length) :
    takeRight V (lstripL s) = takeRight V s := by
  conv_rhs => rw [← List.takeWhile_append_dropWhile (p := pyIsSpace) (l := s)]
  exact (takeRight_append_of_le _ h).symm

/-! #### C7: `"\n\n".join` lemmas -/

/-- The two-or-more equation of `joinSep`. -/
theorem joinSep_cons_cons (w x : List Char) (xs : List (List Char)) :
    joinSep NL2 (w :: x :: xs) = w ++ NL2 ++ joinSep NL2 (x :: xs) := rfl

/-- A join of nonempty paragraphs is nonempty. -/
theorem joinSep_ne_nil {b : List (List Char)} (hb : b ≠ [])
    (h : ∀ p ∈ b, p ≠ []) : joinSep NL2 b ≠ [] := by
  cases b with
  | nil => exact absurd rfl hb
  | cons w ws =>
    cases ws with
    | nil => exact h w (List.mem_cons_self w [])
    | cons x xs =>
      rw [joinSep_cons_cons]
      simp [NL2]

/-- Joining after appending one paragraph. -/
theorem joinSep_append_single {b : List (List Char)} (hb : b ≠ [])
    (p : List Char) :
    joinSep NL2 (b ++ [p]) = joinSep NL2 b ++ NL2 ++ p := by
  induction b with
  | nil => exact absurd rfl hb
  | cons w ws ih =>
    cases hws : ws with
    | nil => rfl
    | cons x xs =>
      subst hws
      have h1 : joinSep NL2 ((w :: x :: xs) ++ [p]) =
          w ++ NL2 ++ joinSep NL2 ((x :: xs) ++ [p]) := by
        rw [List.cons_append, List.cons_append, joinSep_cons_cons]
      rw [h1, ih (List.cons_ne_nil x xs), joinSep_cons_cons]
      simp [List.append_assoc]

/-- A join of trailing-whitespace-free paragraphs is trailing-whitespace
free. -/
theorem joinSep_lastOk {b : List (List Char)}
    (h : ∀ p ∈ b, p ≠ [] ∧ LastOk p) : LastOk (joinSep NL2 b) := by
  induction b with
  | nil => intro c hc; cases hc
  | cons w ws ih =>
    cases hws : ws with
    | nil =>
      subst hws
      exact (h w (List.mem_cons_self w [])).2
    | cons x xs =>
      subst hws
      rw [joinSep_cons_cons]
      have hrest : ∀ p ∈ x :: xs, p ≠ [] ∧ LastOk p := fun p hp =>
        h p (List.mem_cons_of_mem w hp)
      have hne : joinSep NL2 (x :: xs) ≠ [] :=
        joinSep_ne_nil (List.cons_ne_nil x xs) (fun p hp => (hrest p hp).1)
      exact lastOk_append hne (ih hrest)

/-- A paragraph produced by `_paragraphs` is nonempty and has no trailing
whitespace. -/
theorem paragraphsOf_ok {text p : List Char}
    (hp : p ∈ paragraphsOf text) : p ≠ [] ∧ LastOk p := by
  unfold paragraphsOf at hp
  have h1 := List.of_mem_filter hp
  have h2 := List.mem_of_mem_filter hp
  obtain ⟨line, -, hline⟩ := List.mem_map.mp h2
  refine ⟨by simpa using h1, ?_⟩
  rw [← hline]
  exact lastOk_rstripL (lstripL line)

/-- Folding preserves a predicate that each encountered element
preserves. -/
theorem foldl_preserve_mem {α β : Type} (P : α → Prop) (f : α → β → α) :
    ∀ (l : List β), (∀ a b, b ∈ l → P a → P (f a b)) →
      ∀ a, P a → P (l.foldl f a) := by
  intro l
  induction l with
  | nil => intro _ a ha; exact ha
  | cons x xs ih =>
    intro h a ha
    exact ih (fun a b hb hp => h a b (List.mem_cons_of_mem x hb) hp)
      (f a x) (h a x (List.mem_cons_self x xs) ha)

/-! #### C7: the split invariant is preserved -/

/-- Extending a `LinkOk` chain by one chunk linked to the old last. -/
theorem chain_snoc {V : Nat} {l : List SChunk}
    (hch : List.Chain' (LinkOk V) l) (c : SChunk)
    (hlink : ∀ x, l.getLast? = some x → LinkOk V x c) :
    List.Chain' (LinkOk V) (l ++ [c]) := by
  rw [List.chain'_append]
  refine ⟨hch, List.chain'_singleton c, ?_⟩
  intro x hx y hy
  have hy' : c = y := by simpa using hy
  subst hy'
  exact hlink x hx

/-- The live-buffer half of the invariant survives appending one
paragraph to the buffer. -/
theorem lastSize_append_para {V : Nat} {s : SplitState} (h : SplitInv V s)
    (para : List Char) :
    ∀ c, s.chunks.getLast? = some c → c.tag = FlushKind.size →
      s.buffer ++ [para] ≠ [] ∧
        StartsWith (takeRight V c.rawText)
          (joinSep NL2 (s.buffer ++ [para])) := by
  intro c hc htag
  obtain ⟨hb, hsw⟩ := h.lastSize c hc htag
  refine ⟨by simp, ?_⟩
  rw [joinSep_append_single hb]
  exact startsWith_append para (startsWith_append NL2 hsw)

/-- One paragraph step of `split` preserves the invariant. -/
theorem splitInv_step (maxChars V pageNum : Nat) (hV : 0 < V)
    (s : SplitState) (para : List Char) (hne : para ≠ [])
    (hlp : LastOk para) (h : SplitInv V s) :
    SplitInv V (processSplitPara maxChars V pageNum s para) := by
  unfold processSplitPara
  simp only []
  split
  · -- heading paragraph
    split
    · -- nonempty buffer: heading flush
      rename_i hbuf
      refine ⟨?_, ?_, ?_, ?_⟩
      · intro p hp
        exact absurd hp (List.not_mem_nil p)
      · intro c hc
        have hc' : c ∈ s.chunks ++
            [emitChunk s (pyOrNat s.bufferStartPage pageNum) pageNum
              FlushKind.heading] := hc
        rcases List.mem_append.mp hc' with hold | hnew
        · exact h.chunksOk c hold
        · have hcE := List.mem_singleton.mp hnew
          subst hcE
          exact ⟨rfl, joinSep_ne_nil hbuf (fun p hp => (h.bufOk p hp).1),
            joinSep_lastOk h.bufOk⟩
      · exact chain_snoc h.chain _
          (fun x hx htag => (h.lastSize x hx htag).2)
      · intro c hc htag
        have hc' : (s.chunks ++
            [emitChunk s (pyOrNat s.bufferStartPage pageNum) pageNum
              FlushKind.heading]).getLast? = some c := hc
        rw [List.getLast?_concat] at hc'
        have hcE : emitChunk s (pyOrNat s.bufferStartPage pageNum) pageNum
            FlushKind.heading = c := by injection hc'
        rw [← hcE] at htag
        have hht : FlushKind.heading = FlushKind.size := htag
        exact absurd hht (by decide)
    · -- empty buffer: only the section title changes
      exact ⟨h.bufOk, h.chunksOk, h.chain, h.lastSize⟩
  · -- body paragraph
    have hbrec : ∀ p ∈ s.buffer ++ [para], p ≠ [] ∧ LastOk p := by
      intro p hp
      rcases List.mem_append.mp hp with h1 | h2
      · exact h.bufOk p h1
      · have hp2 := List.mem_singleton.mp h2
        subst hp2
        exact ⟨hne, hlp⟩
    have hb2ne : s.buffer ++ [para] ≠ [] := by simp
    split
    · -- the budget is hit: size flush plus overlap seeding
      have hjoin_ne : joinSep NL2 (s.buffer ++ [para]) ≠ [] :=
        joinSep_ne_nil hb2ne (fun p hp => (hbrec p hp).1)
      have hjoin_last : LastOk (joinSep NL2 (s.buffer ++ [para])) :=
        joinSep_lastOk hbrec
      have hov : withOverlap V (s.buffer ++ [para]) =
          ([takeRight V (joinSep NL2 (s.buffer ++ [para]))],
           (takeRight V (joinSep NL2 (s.buffer ++ [para]))).length) := by
        unfold withOverlap
        rw [if_neg]
        intro hor
        rcases hor with h1 | h2
        · exact hb2ne h1
        · omega
      have htail_ne : takeRight V (joinSep NL2 (s.buffer ++ [para])) ≠ [] :=
        takeRight_ne_nil hV hjoin_ne
      have htail_last :
          LastOk (takeRight V (joinSep NL2 (s.buffer ++ [para]))) :=
        lastOk_takeRight hjoin_last htail_ne
      refine ⟨?_, ?_, ?_, ?_⟩
      · intro p hp
        have hp' : p ∈ (withOverlap V (s.buffer ++ [para])).1 := hp
        rw [hov] at hp'
        have hp2 := List.mem_singleton.mp hp'
        subst hp2
        exact ⟨htail_ne, htail_last⟩
      · intro c hc
        have hc' : c ∈ s.chunks ++
            [emitChunk
              { s with
                bufferStartPage := some (s.bufferStartPage.getD pageNum)
                buffer := s.buffer ++ [para]
                bufferChars := s.bufferChars + para.length }
              (s.bufferStartPage.getD pageNum) pageNum FlushKind.size] := hc
        rcases List.mem_append.mp hc' with hold | hnew
        · exact h.chunksOk c hold
        · have hcE := List.mem_singleton.mp hnew
          subst hcE
          exact ⟨rfl, hjoin_ne, hjoin_last⟩
      · exact chain_snoc h.chain _
          (fun x hx htag => (lastSize_append_para h para x hx htag).2)
      · intro c hc htag
        have hc' : (s.chunks ++
            [emitChunk
              { s with
                bufferStartPage := some (s.bufferStartPage.getD pageNum)
                buffer := s.buffer ++ [para]
                bufferChars := s.bufferChars + para.length }
              (s.bufferStartPage.getD pageNum) pageNum
              FlushKind.size]).getLast? = some c := hc
        rw [List.getLast?_concat] at hc'
        have hcE : emitChunk
            { s with
              bufferStartPage := some (s.bufferStartPage.getD pageNum)
              buffer := s.buffer ++ [para]
              bufferChars := s.bufferChars + para.length }
            (s.bufferStartPage.getD pageNum) pageNum FlushKind.size = c := by
          injection hc'
        refine ⟨?_, ?_⟩
        · show (withOverlap V (s.buffer ++ [para])).1 ≠ []
          rw [hov]
          exact List.cons_ne_nil _ _
        · show StartsWith (takeRight V c.rawText)
            (joinSep NL2 (withOverlap V (s.buffer ++ [para])).1)
          rw [← hcE, hov]
          exact startsWith_refl _
    · -- no flush: the paragraph simply joins the buffer
      exact ⟨hbrec, h.chunksOk, h.chain, lastSize_append_para h para⟩

/-- The whole page loop preserves the invariant. -/
theorem splitInv_pages (maxChars V : Nat) (hV : 0 < V) :
    ∀ (pages : List PageText) (acc : SplitState × Nat), SplitInv V acc.1 →
      SplitInv V (processSplitPages maxChars V pages acc).1 := by
  intro pages
  induction pages with
  | nil => intro acc h; exact h
  | cons page ps ih =>
    intro acc h
    obtain ⟨s, n⟩ := acc
    show SplitInv V (processSplitPages maxChars V ps
      ((paragraphsOf page.text).foldl
        (processSplitPara maxChars V page.page_number) s,
       page.page_number)).1
    apply ih
    show SplitInv V ((paragraphsOf page.text).foldl
      (processSplitPara maxChars V page.page_number) s)
    refine foldl_preserve_mem (SplitInv V)
      (processSplitPara maxChars V page.page_number) _ ?_ s h
    intro a b hb hp
    obtain ⟨hbne, hbl⟩ := paragraphsOf_ok hb
    exact splitInv_step maxChars V page.page_number hV a b hbne hbl hp

/-- `split`'s output satisfies the per-chunk facts and the overlap
chain. -/
theorem splitPages_chain (maxChars V : Nat) (hV : 0 < V)
    (pages : List PageText) :
    (∀ c ∈ splitPages maxChars V pages,
        c.text = stripL c.rawText ∧ c.rawText ≠ [] ∧ LastOk c.rawText) ∧
      List.Chain' (LinkOk V) (splitPages maxChars V pages) := by
  have hinit : SplitInv V
      ({ chunks := [], buffer := [], bufferChars := 0, bufferStartPage := none,
         currentSection := none, chunkIndex := 0 } : SplitState) := by
    refine ⟨?_, ?_, ?_, ?_⟩
    · intro p hp; exact absurd hp (List.not_mem_nil p)
    · intro c hc; exact absurd hc (List.not_mem_nil c)
    · exact List.chain'_nil
    · intro c hc htag; cases hc
  have hinv := splitInv_pages maxChars V hV pages
    ({ chunks := [], buffer := [], bufferChars := 0, bufferStartPage := none,
       currentSection := none, chunkIndex := 0 }, 1) hinit
  unfold splitPages
  simp only []
  split
  · -- final flush of a live buffer
    rename_i hbuf
    constructor
    · intro c hc
      rcases List.mem_append.mp hc with h1 | h2
      · exact hinv.chunksOk c h1
      · have hcE := List.mem_singleton.mp h2
        subst hcE
        exact ⟨rfl, joinSep_ne_nil hbuf (fun p hp => (hinv.bufOk p hp).1),
          joinSep_lastOk hinv.bufOk⟩
    · exact chain_snoc hinv.chain _
        (fun x hx htag => (hinv.lastSize x hx htag).2)
  · exact ⟨hinv.chunksOk, hinv.chain⟩

/-- C7 counterexample: with `max_chars = 6`, `overlap_chars = 4` and the
single page `"abcd\nef\ngh"`, chunk 0 is a pure size flush, yet its last 4
characters (`"\n\nef"`) differ from chunk 1's first 4 characters
(`"ef\n\n"`): `_with_overlap` seeds the raw tail, but `_emit_chunk` strips
the emitted text, shifting the window whenever the tail straddles the
`"\n\n"` separator. -/
theorem c7_overlap_counterexample :
    (splitPages 6 4 [{ page_number := 1, text := "abcd\nef\ngh".toList }]).map
        (fun c => (c.text, c.tag)) =
      [("abcd\n\nef".toList, FlushKind.size),
       ("ef\n\ngh".toList, FlushKind.size),
       ("gh".toList, FlushKind.final)] ∧
      takeRight 4 "abcd\n\nef".toList ≠ ("ef\n\ngh".toList).take 4 := by
  constructor
  · rfl
  · decide

/-- C7 (amended): for overlap `V > 0`, whenever chunk `i` was a pure
size-based flush, its stripped text is at least `V` characters long, and
the trailing `V`-character window is not shifted by left-stripping (it
starts with a non-whitespace character), the last `V` characters of chunk
`i`'s text equal the first `V` characters of chunk `i + 1`'s text. -/
theorem c7_overlap_of_size_flush (maxChars V : Nat) (pages : List PageText)
    (hV : 0 < V) (i : Nat) (ci cj : SChunk)
    (hi : (splitPages maxChars V pages).get? i = some ci)
    (hj : (splitPages maxChars V pages).get? (i + 1) = some cj)
    (htag : ci.tag = FlushKind.size)
    (hlen : V ≤ ci.text.length)
    (hclean : lstripL (takeRight V ci.text) = takeRight V ci.text) :
    takeRight V ci.text = cj.text.take V := by
  obtain ⟨hall, hchain⟩ := splitPages_chain maxChars V hV pages
  obtain ⟨hti, hri, hlasti⟩ := hall ci (List.get?_mem hi)
  obtain ⟨htj, hrj, hlastj⟩ := hall cj (List.get?_mem hj)
  obtain ⟨hilt, higet⟩ := List.get?_eq_some.mp hi
  obtain ⟨hjlt, hjget⟩ := List.get?_eq_some.mp hj
  have hlink : LinkOk V ci cj := by
    have h0 := List.chain'_iff_get.mp hchain i (by omega)
    rw [← higet, ← hjget]
    exact h0
  have hsw : StartsWith (takeRight V ci.rawText) cj.rawText := hlink htag
  -- chunk i's text is the left strip of its raw text
  have htext_ne : ci.text ≠ [] := by
    intro h0
    rw [h0] at hlen
    simp at hlen
    omega
  have hlstrip_ne : lstripL ci.rawText ≠ [] := by
    intro h0
    apply htext_ne
    rw [hti]
    unfold stripL
    rw [h0]
    rfl
  have hti' : ci.text = lstripL ci.rawText := by
    rw [hti]
    unfold stripL
    exact lastOk_rstrip (lastOk_lstrip hlasti hlstrip_ne)
  -- the trailing window is the same on the stripped and the raw text
  have htail : takeRight V ci.text = takeRight V ci.rawText := by
    rw [hti']
    exact takeRight_lstrip (by rw [← hti']; exact hlen)
  have hrawlen : V ≤ ci.rawText.length := by
    have h1 := length_lstrip_le ci.rawText
    rw [← hti'] at h1
    omega
  have htlen : (takeRight V ci.rawText).length = V := by
    rw [length_takeRight]
    omega
  -- the window head is not whitespace, so chunk i+1's strip is a no-op
  have htail_ne : takeRight V ci.rawText ≠ [] :=
    takeRight_ne_nil hV (fun h0 => hri h0)
  have hclean' : lstripL (takeRight V ci.rawText) = takeRight V ci.rawText := by
    rw [← htail]
    exact hclean
  obtain ⟨c0, t0, htc, hc0⟩ := lstrip_eq_self_head htail_ne hclean'
  have hsplitj := startsWith_eq_append hsw
  have hlstripj : lstripL cj.rawText = cj.rawText := by
    conv_lhs => rw [hsplitj]
    conv_rhs => rw [hsplitj]
    rw [htc, List.cons_append]
    exact lstrip_cons_of_not_space hc0
  have htj' : cj.text = cj.rawText := by
    rw [htj]
    unfold stripL
    rw [hlstripj]
    exact lastOk_rstrip hlastj
  -- conclude
  have htake : cj.rawText.take V = takeRight V ci.rawText := by
    have h1 : cj.rawText.take (takeRight V ci.rawText).length =
        takeRight V ci.rawText := hsw
    rw [htlen] at h1
    exact h1
  rw [htail, htj', htake]

/-- C7 witness: with `max_chars = 4`, `overlap_chars = 2` and the page
`"abcd\nef"`, chunk 0 (`"abcd"`) is a clean size flush and its last two
characters `"cd"` are exactly the first two of chunk 1 (`"cd\n\nef"`). -/
theorem c7_overlap_witness :
    takeRight 2 c7ChunkA.text = c7ChunkB.text.take 2 :=
  c7_overlap_of_size_flush 4 2
    [{ page_number := 1, text := "abcd\nef".toList }]
    (by decide) 0 c7ChunkA c7ChunkB rfl rfl rfl (by decide) rfl

end Chatieee
